import Mathlib

/-!
# Verification of the face-matching core of `face-auth-sso`

Shallow embedding of the face-authentication core of the repository:

* the Euclidean-distance computations (reference loop, and the manually
  unrolled stride-8 / stride-4 loops of `src/utils/db.js` and
  `src/server/utils/faceRecognition.js`),
* the three nearest-match search implementations
  (`findMatchingFace` in `src/utils/db.js`,
  `findMatchingFace` / `findMatchingFaceDirectly` in
  `src/server/utils/faceRecognition.js`, and
  `findMatchingFace` in the third server variant),
* the model-load singletons (`loadModels` in both files),
* the descriptor-extraction pipelines with their content-hash caches.

Numbers are modelled as rationals (exact arithmetic; IEEE-754 rounding is
not modelled).  JavaScript `NaN` — which arises in the source exactly when
a candidate descriptor is shorter than the query, so that the unrolled
loop reads `undefined` — is modelled by `Option ℚ` (`none` = NaN), and
every comparison involving NaN is false, as in JavaScript.

The source compares square roots of sums of squares
(`Math.sqrt(sum) < threshold` and similar).  Since all radicands are
non-negative, such a comparison is equivalent to `0 ≤ threshold ∧
sum < threshold ^ 2`; the embedding uses that decidable form
(`sqrtLtQ` / `sqrtLeQ`) and the equivalence is proved against
`Real.sqrt` (`sqrtLtQ_iff_sqrt`, `sqrtLeQ_iff_sqrt`).
-/

namespace FaceAuth

/-- A face descriptor: an ordered sequence of numbers
(`Float32Array` / plain array in the source). -/
abbrev Desc := List ℚ

/-- An enrolled face profile as seen by the matchers: an identifier and an
optional descriptor (the `faceDescriptor` field may be `null`/absent in the
database). -/
structure Profile where
  id : ℕ
  faceDescriptor : Option Desc
deriving DecidableEq, Repr

/-- One guarded term of the unrolled loops:
`(k < len) ? (target[k] - profile[k])^2 : 0`, with in-range reads taken via
`getD` (the guard makes the target read in range; profile reads are the
callers' responsibility, see `jsSumSq`). -/
def sqTerm (t p : Desc) (k : ℕ) : ℚ :=
  if k < t.length then (t.getD k 0 - p.getD k 0) ^ 2 else 0

/-- Structural engine for the step-1 reference loop: `fuel` bounds the
remaining iterations (the loop advances `i` by one, so `t.length - i`
iterations always suffice); kept structural so that concrete runs reduce
in the kernel. -/
def sumSqGo (t p : Desc) : ℕ → ℕ → ℚ
  | 0, _ => 0
  | fuel + 1, i => if i < t.length then sqTerm t p i + sumSqGo t p fuel (i + 1) else 0

/-- Reference sum of squared differences, the step-1 loop
`for (i = 0; i < len; i++) sum += (t[i]-p[i])^2` starting at index `i`
(see `sumSqFrom_rec` for its defining recurrence). -/
def sumSqFrom (t p : Desc) (i : ℕ) : ℚ :=
  sumSqGo t p (t.length - i) i

/-- Any sufficient fuel computes the same sum. -/
theorem sumSqGo_fuel (t p : Desc) (f1 : ℕ) :
    ∀ f2 i, t.length - i ≤ f1 → t.length - i ≤ f2 →
      sumSqGo t p f1 i = sumSqGo t p f2 i := by
  induction f1 with
  | zero =>
    intro f2 i h1 h2
    cases f2 with
    | zero => rfl
    | succ g =>
      show (0 : ℚ) = if i < t.length then _ else 0
      rw [if_neg (by omega)]
  | succ f ih =>
    intro f2 i h1 h2
    by_cases hi : i < t.length
    · cases f2 with
      | zero => omega
      | succ g =>
        show (if i < t.length then sqTerm t p i + sumSqGo t p f (i + 1) else 0) =
          (if i < t.length then sqTerm t p i + sumSqGo t p g (i + 1) else 0)
        rw [if_pos hi, if_pos hi, ih g (i + 1) (by omega) (by omega)]
    · cases f2 with
      | zero =>
        show (if i < t.length then _ else (0 : ℚ)) = 0
        rw [if_neg hi]
      | succ g =>
        show (if i < t.length then _ else (0 : ℚ)) =
          (if i < t.length then _ else 0)
        rw [if_neg hi, if_neg hi]

/-- Reference sum of squared componentwise differences over all components
of the query descriptor (the radicand of the spec's
`sqrt(Σ (query[i] − candidate[i])²)`). -/
def sumSqRef (t p : Desc) : ℚ := sumSqFrom t p 0

/-- The stride-8 unrolled loop body of `src/utils/db.js` lines 419–430
(and the third variant, lines 297–307): eight guarded terms per
iteration, `j += 8`, starting at index `j`. -/
def sumSq8From (t p : Desc) (j : ℕ) : ℚ :=
  if j < t.length then
    (sqTerm t p j + sqTerm t p (j + 1) + sqTerm t p (j + 2) + sqTerm t p (j + 3) +
     sqTerm t p (j + 4) + sqTerm t p (j + 5) + sqTerm t p (j + 6) + sqTerm t p (j + 7)) +
    sumSq8From t p (j + 8)
  else 0
termination_by t.length - j

/-- Stride-8 unrolled sum of squared differences (`db.js` lines 415–430). -/
def sumSq8 (t p : Desc) : ℚ := sumSq8From t p 0

/-- The stride-4 unrolled loop body of
`src/server/utils/faceRecognition.js` lines 247–254 and 333–340: four
guarded difference terms per iteration, `i += 4`.  The first difference of
each iteration is unguarded in the source (`d1[i] - d2[i]`), which is the
same as the guarded term because the loop condition already gives
`i < length`. -/
def sumSq4From (t p : Desc) (i : ℕ) : ℚ :=
  if i < t.length then
    (sqTerm t p i + sqTerm t p (i + 1) + sqTerm t p (i + 2) + sqTerm t p (i + 3)) +
    sumSq4From t p (i + 4)
  else 0
termination_by t.length - i

/-- Stride-4 unrolled sum of squared differences
(`faceRecognition.js`). -/
def sumSq4 (t p : Desc) : ℚ := sumSq4From t p 0

/-- The sum the source's loops denote under JavaScript semantics: when the
candidate descriptor is shorter than the query, the loop reads `undefined`
and the whole sum is NaN (`none`); otherwise it is the exact sum of
squares. -/
def jsSumSq (t p : Desc) : Option ℚ :=
  if p.length < t.length then none else some (sumSqRef t p)

/-- Decidable encoding of `Math.sqrt d ≤ c` for a non-negative radicand
`d`: equivalent to `0 ≤ c ∧ d ≤ c ^ 2` (see `sqrtLeQ_iff_sqrt`). -/
def sqrtLeQ (d c : ℚ) : Prop := 0 ≤ c ∧ d ≤ c ^ 2

/-- Decidable encoding of `Math.sqrt d < c` for a non-negative radicand
`d`: equivalent to `0 ≤ c ∧ d < c ^ 2` (see `sqrtLtQ_iff_sqrt`). -/
def sqrtLtQ (d c : ℚ) : Prop := 0 ≤ c ∧ d < c ^ 2

instance (d c : ℚ) : Decidable (sqrtLeQ d c) := by unfold sqrtLeQ; infer_instance

instance (d c : ℚ) : Decidable (sqrtLtQ d c) := by unfold sqrtLtQ; infer_instance

/-- The Euclidean distance the source computes (`Math.sqrt` of the sum of
squared componentwise differences). -/
noncomputable def euclideanDistance (t p : Desc) : ℝ :=
  Real.sqrt ((sumSqRef t p : ℚ) : ℝ)

theorem sqTerm_nonneg (t p : Desc) (k : ℕ) : 0 ≤ sqTerm t p k := by
  unfold sqTerm
  split
  · positivity
  · exact le_rfl

theorem sumSqGo_nonneg (t p : Desc) (fuel : ℕ) : ∀ i, 0 ≤ sumSqGo t p fuel i := by
  induction fuel with
  | zero => intro i; exact le_rfl
  | succ f ih =>
    intro i
    show 0 ≤ if i < t.length then sqTerm t p i + sumSqGo t p f (i + 1) else 0
    split
    · have h1 := sqTerm_nonneg t p i
      have h2 := ih (i + 1)
      linarith
    · exact le_rfl

theorem sumSqFrom_nonneg (t p : Desc) (i : ℕ) : 0 ≤ sumSqFrom t p i :=
  sumSqGo_nonneg t p (t.length - i) i

theorem sumSqRef_nonneg (t p : Desc) : 0 ≤ sumSqRef t p := sumSqFrom_nonneg t p 0

/-- `sqrtLeQ` encodes exactly the source's `Math.sqrt d ≤ c` on
non-negative radicands. -/
theorem sqrtLeQ_iff_sqrt (d c : ℚ) (hd : 0 ≤ d) :
    sqrtLeQ d c ↔ Real.sqrt (d : ℝ) ≤ (c : ℝ) := by
  unfold sqrtLeQ
  constructor
  · rintro ⟨hc, hdc⟩
    have h1 : Real.sqrt (d : ℝ) ≤ Real.sqrt ((c : ℝ) ^ 2) := by
      apply Real.sqrt_le_sqrt
      exact_mod_cast hdc
    rwa [Real.sqrt_sq (by exact_mod_cast hc)] at h1
  · intro h
    have hc : (0 : ℝ) ≤ (c : ℝ) := le_trans (Real.sqrt_nonneg _) h
    refine ⟨by exact_mod_cast hc, ?_⟩
    have h2 : Real.sqrt (d : ℝ) ^ 2 ≤ (c : ℝ) ^ 2 := by
      apply pow_le_pow_left₀ (Real.sqrt_nonneg _) h
    rwa [Real.sq_sqrt (by exact_mod_cast hd), ← Rat.cast_pow, Rat.cast_le] at h2

/-- `sqrtLtQ` encodes exactly the source's `Math.sqrt d < c` on
non-negative radicands. -/
theorem sqrtLtQ_iff_sqrt (d c : ℚ) (hd : 0 ≤ d) :
    sqrtLtQ d c ↔ Real.sqrt (d : ℝ) < (c : ℝ) := by
  unfold sqrtLtQ
  constructor
  · rintro ⟨hc, hdc⟩
    have h1 : (d : ℝ) < ((c : ℝ)) ^ 2 := by exact_mod_cast hdc
    have h2 : Real.sqrt (d : ℝ) < Real.sqrt ((c : ℝ) ^ 2) := by
      apply Real.sqrt_lt_sqrt (by exact_mod_cast hd) h1
    rwa [Real.sqrt_sq (by exact_mod_cast hc)] at h2
  · intro h
    have hc : (0 : ℝ) ≤ (c : ℝ) := le_trans (Real.sqrt_nonneg _) (le_of_lt h)
    refine ⟨by exact_mod_cast hc, ?_⟩
    have h2 : Real.sqrt (d : ℝ) ^ 2 < (c : ℝ) ^ 2 := by
      apply pow_lt_pow_left₀ h (Real.sqrt_nonneg _)
      simp
    rwa [Real.sq_sqrt (by exact_mod_cast hd), ← Rat.cast_pow, Rat.cast_lt] at h2

/-- Square roots compare like their non-negative radicands: the source's
`distance < bestDistance` is faithfully tracked on the radicands. -/
theorem sqrt_lt_sqrt_iff_radicand (a b : ℚ) (ha : 0 ≤ a) :
    Real.sqrt (a : ℝ) < Real.sqrt (b : ℝ) ↔ a < b := by
  rw [Real.sqrt_lt_sqrt_iff (by exact_mod_cast ha)]
  exact Rat.cast_lt

/-- `distance < bestDistance` where `bestDistance` starts at `Infinity`
(`none` = no best yet); both sides are radicands of the square roots the
source compares, which is equivalent by strict monotonicity of `sqrt` on
non-negatives (`sqrt_lt_sqrt_iff_radicand`). -/
def ltBest (d : ℚ) (best : Option (Profile × ℚ)) : Prop :=
  match best with
  | none => True
  | some b => d < b.2

instance (d : ℚ) (best : Option (Profile × ℚ)) : Decidable (ltBest d best) := by
  unfold ltBest
  cases best <;> infer_instance

/-- Result of the scan loop of `findMatchingFace` in `src/utils/db.js`:
either the loop returned early (`distance < threshold * 0.7`, lines
440–446) with the candidate it had just recorded, or it ran to the end
with the tracked best.  The `ℕ` counts distance computations performed.
Carried `ℚ` values are the radicands of the distances the source holds
(`bestDistance = Math.sqrt` of them). -/
inductive DbScan where
  | early (q : Profile) (d : ℚ) (n : ℕ)
  | done (best : Option (Profile × ℚ)) (n : ℕ)
deriving DecidableEq, Repr

/-- The profile loop of `findMatchingFace` in `src/utils/db.js` lines
402–449.  The batches of `BATCH_SIZE = 10` (`slice` then inner loop)
visit the profiles in list order, so they are transparent to the
semantics and not reproduced.  A candidate with `null`/`undefined`
`faceDescriptor` is skipped before any distance computation; a candidate
whose descriptor is shorter than the query yields a NaN distance
(`jsSumSq = none`), and NaN comparisons are false. -/
def dbMatchLoop (t : Desc) (thr : ℚ) :
    List Profile → Option (Profile × ℚ) → ℕ → DbScan
  | [], best, n => .done best n
  | q :: rest, best, n =>
    match q.faceDescriptor with
    | none => dbMatchLoop t thr rest best n
    | some dsc =>
      match jsSumSq t dsc with
      | none => dbMatchLoop t thr rest best (n + 1)
      | some d =>
        if ltBest d best then
          if sqrtLtQ d (7 / 10 * thr) then .early q d (n + 1)
          else dbMatchLoop t thr rest (some (q, d)) (n + 1)
        else dbMatchLoop t thr rest best (n + 1)

/-- `findMatchingFace` of `src/utils/db.js` lines 387–456.  Returns the
match object (profile and radicand of the carried distance) or `null`,
paired with the number of distance computations performed.  The
`!targetDescriptor`/`!faceProfiles` guards cover JavaScript `null`
arguments, which the list embedding cannot represent; the
`length === 0` guard is kept.  After a full scan the source returns the
best only when `bestDistance <= threshold` (line 455, non-strict, with
`bestDistance = Infinity` when nothing was tracked). -/
def findMatchingFaceDb (t : Desc) (profiles : List Profile) (thr : ℚ) :
    Option (Profile × ℚ) × ℕ :=
  if profiles.length = 0 then (none, 0)
  else
    match dbMatchLoop t thr profiles none 0 with
    | .early q d n => (some (q, d), n)
    | .done (some (q, d)) n => (if sqrtLeQ d thr then some (q, d) else none, n)
    | .done none n => (none, n)

/-- The profile loop of `findMatchingFaceDirectly` in
`src/server/utils/faceRecognition.js` lines 324–347: a candidate is
recorded only when `distance < threshold && distance < bestDistance`
(line 343, both strict). -/
def directLoop (t : Desc) (thr : ℚ) :
    List Profile → Option (Profile × ℚ) → ℕ → Option (Profile × ℚ) × ℕ
  | [], best, n => (best, n)
  | q :: rest, best, n =>
    match q.faceDescriptor with
    | none => directLoop t thr rest best n
    | some dsc =>
      match jsSumSq t dsc with
      | none => directLoop t thr rest best (n + 1)
      | some d =>
        if sqrtLtQ d thr ∧ ltBest d best then
          directLoop t thr rest (some (q, d)) (n + 1)
        else directLoop t thr rest best (n + 1)

/-- `findMatchingFaceDirectly` of `src/server/utils/faceRecognition.js`
lines 316–350 (`return bestMatch ? { match, distance } : null`), paired
with the distance-computation count. -/
def findMatchingFaceDirectly (t : Desc) (profiles : List Profile) (thr : ℚ) :
    Option (Profile × ℚ) × ℕ :=
  directLoop t thr profiles none 0

/-- The profile loop of `findMatchingFace` in the third server variant
(`src/unnamed/part_003` lines 285–315): tracks the global minimum with
`distance < bestDistance`, no early exit, no per-candidate threshold
test. -/
def p3Loop (t : Desc) (thr : ℚ) :
    List Profile → Option (Profile × ℚ) → ℕ → Option (Profile × ℚ) × ℕ
  | [], best, n => (best, n)
  | q :: rest, best, n =>
    match q.faceDescriptor with
    | none => p3Loop t thr rest best n
    | some dsc =>
      match jsSumSq t dsc with
      | none => p3Loop t thr rest best (n + 1)
      | some d =>
        if ltBest d best then p3Loop t thr rest (some (q, d)) (n + 1)
        else p3Loop t thr rest best (n + 1)

/-- `findMatchingFace` of `src/unnamed/part_003` lines 273–321: full scan
for the minimum, then `bestDistance < threshold` (line 318, strict). -/
def findMatchingFaceP3 (t : Desc) (profiles : List Profile) (thr : ℚ) :
    Option (Profile × ℚ) × ℕ :=
  if profiles.length = 0 then (none, 0)
  else
    match p3Loop t thr profiles none 0 with
    | (some (q, d), n) => (if sqrtLtQ d thr then some (q, d) else none, n)
    | (none, n) => (none, n)

/-- Splitting into batches of `n + 1` profiles
(`faceProfiles.slice(i, i + batchSize)` in the wrapper, lines 287–289);
the off-by-one argument keeps the recursion well founded for every
argument while the wrapper only calls it with its positive
`batchSize`. -/
def chunksOf (n : ℕ) : List Profile → List (List Profile)
  | [] => []
  | a :: l => (a :: l).take (n + 1) :: chunksOf n ((a :: l).drop (n + 1))
termination_by l => l.length
decreasing_by simp [List.length_cons]; omega

/-- Result shape of the wrapper `findMatchingFace` of
`src/server/utils/faceRecognition.js` lines 271–307: the direct path
returns the `{ match, distance }` object, but the batch path returns the
bare profile (`return bestMatch`, line 306). -/
inductive SrvMatch where
  | null
  | matched (q : Profile) (d : ℚ)
  | profileOnly (q : Profile)
deriving DecidableEq, Repr

/-- `findMatchingFace` of `src/server/utils/faceRecognition.js` lines
271–307, parameterized by `CPU_CORES` (environment dependent in the
source, `Math.max(1, os.cpus().length - 1)`).  Fewer than 10 profiles or
one core: delegate to `findMatchingFaceDirectly`.  Otherwise batches of
`Math.ceil(length / cores)` are each scanned directly and merged on
`batchResult.distance < bestDistance` (line 299). -/
def findMatchingFaceSrv (cores : ℕ) (t : Desc) (profiles : List Profile) (thr : ℚ) :
    SrvMatch × ℕ :=
  if profiles.length = 0 then (.null, 0)
  else if profiles.length < 10 ∨ cores ≤ 1 then
    match findMatchingFaceDirectly t profiles thr with
    | (some (q, d), n) => (.matched q d, n)
    | (none, n) => (.null, n)
  else
    let batchSize := (profiles.length + cores - 1) / cores
    let r := (chunksOf (batchSize - 1) profiles).foldl
      (fun acc batch =>
        match findMatchingFaceDirectly t batch thr with
        | (some (q, d), n) =>
          match acc.1 with
          | some b => (if d < b.2 then some (q, d) else acc.1, acc.2 + n)
          | none => (some (q, d), acc.2 + n)
        | (none, n) => (acc.1, acc.2 + n))
      ((none : Option (Profile × ℚ)), 0)
    match r.1 with
    | some (q, _) => (.profileOnly q, r.2)
    | none => (.null, r.2)

theorem sqTerm_of_ge (t p : Desc) (k : ℕ) (h : t.length ≤ k) : sqTerm t p k = 0 := by
  unfold sqTerm
  rw [if_neg (by omega)]

theorem sumSqFrom_of_ge (t p : Desc) (i : ℕ) (h : t.length ≤ i) : sumSqFrom t p i = 0 := by
  unfold sumSqFrom
  rw [show t.length - i = 0 by omega]
  rfl

/-- The step-1 recurrence holds unconditionally: past the end both sides
are zero. -/
theorem sumSqFrom_rec (t p : Desc) (i : ℕ) :
    sumSqFrom t p i = sqTerm t p i + sumSqFrom t p (i + 1) := by
  by_cases h : i < t.length
  · unfold sumSqFrom
    rw [show t.length - i = (t.length - (i + 1)) + 1 by omega]
    show (if i < t.length then _ else (0 : ℚ)) = _
    rw [if_pos h]
  · rw [sqTerm_of_ge t p i (by omega), sumSqFrom_of_ge t p i (by omega),
      sumSqFrom_of_ge t p (i + 1) (by omega)]
    norm_num

/-- The stride-8 unrolled loop computes the reference sum from any start
index. -/
theorem sumSq8From_eq (t p : Desc) (j : ℕ) : sumSq8From t p j = sumSqFrom t p j := by
  rw [sumSq8From]
  split
  case isTrue h =>
    rw [sumSq8From_eq t p (j + 8)]
    conv_rhs =>
      rw [sumSqFrom_rec t p j, sumSqFrom_rec t p (j + 1), sumSqFrom_rec t p (j + 2),
        sumSqFrom_rec t p (j + 3), sumSqFrom_rec t p (j + 4), sumSqFrom_rec t p (j + 5),
        sumSqFrom_rec t p (j + 6), sumSqFrom_rec t p (j + 7)]
    ring_nf
  case isFalse h =>
    rw [sumSqFrom_of_ge t p j (by omega)]
termination_by t.length - j

/-- The stride-4 unrolled loop computes the reference sum from any start
index. -/
theorem sumSq4From_eq (t p : Desc) (i : ℕ) : sumSq4From t p i = sumSqFrom t p i := by
  rw [sumSq4From]
  split
  case isTrue h =>
    rw [sumSq4From_eq t p (i + 4)]
    conv_rhs =>
      rw [sumSqFrom_rec t p i, sumSqFrom_rec t p (i + 1), sumSqFrom_rec t p (i + 2),
        sumSqFrom_rec t p (i + 3)]
    ring_nf
  case isFalse h =>
    rw [sumSqFrom_of_ge t p i (by omega)]
termination_by t.length - i

theorem sumSq8_eq_ref (t p : Desc) : sumSq8 t p = sumSqRef t p := sumSq8From_eq t p 0

theorem sumSq4_eq_ref (t p : Desc) : sumSq4 t p = sumSqRef t p := sumSq4From_eq t p 0

/-- Reading one position further into both cons-cells is reading the
tails. -/
theorem sqTerm_cons (a b : ℚ) (t p : Desc) (i : ℕ) :
    sqTerm (a :: t) (b :: p) (i + 1) = sqTerm t p i := by
  unfold sqTerm
  by_cases h : i < t.length
  · rw [if_pos (by simp [List.length_cons]; omega), if_pos h]
    simp [List.getD_cons_succ]
  · rw [if_neg (by simp [List.length_cons]; omega), if_neg h]

theorem sumSqFrom_cons (a b : ℚ) (t p : Desc) (i : ℕ) :
    sumSqFrom (a :: t) (b :: p) (i + 1) = sumSqFrom t p i := by
  by_cases h : i < t.length
  · rw [sumSqFrom_rec (a :: t) (b :: p) (i + 1), sumSqFrom_rec t p i,
      sumSqFrom_cons a b t p (i + 1), sqTerm_cons]
  · rw [sumSqFrom_of_ge (a :: t) (b :: p) (i + 1) (by simp [List.length_cons]; omega),
      sumSqFrom_of_ge t p i (by omega)]
termination_by t.length - i

/-- On equal-length descriptors, the reference sum is the textbook
`Σ (t[i] − p[i])²` over the zipped components. -/
theorem sumSqRef_eq_zip (t p : Desc) (h : t.length = p.length) :
    sumSqRef t p = (List.zipWith (fun a b => (a - b) ^ 2) t p).sum := by
  induction t generalizing p with
  | nil =>
    cases p with
    | nil => rfl
    | cons b p => simp at h
  | cons a t ih =>
    cases p with
    | nil => simp at h
    | cons b p =>
      rw [sumSqRef, sumSqFrom_rec, sumSqFrom_cons]
      unfold sqTerm
      simp only [List.length_cons, List.zipWith_cons_cons, List.sum_cons]
      rw [if_pos (by omega)]
      simp only [List.getD_cons_zero]
      rw [show sumSqFrom t p 0 = (List.zipWith (fun a b => (a - b) ^ 2) t p).sum from
        ih p (by simpa using h)]

theorem jsSumSq_some (t dp : Desc) (e : ℚ) (h : jsSumSq t dp = some e) :
    e = sumSqRef t dp ∧ t.length ≤ dp.length := by
  unfold jsSumSq at h
  by_cases hl : dp.length < t.length
  · rw [if_pos hl] at h; exact absurd h (by simp)
  · rw [if_neg hl] at h
    exact ⟨(Option.some_injective ℚ h).symm, by omega⟩

theorem jsSumSq_nonneg (t dp : Desc) (e : ℚ) (h : jsSumSq t dp = some e) : 0 ≤ e :=
  (jsSumSq_some t dp e h).1 ▸ sumSqRef_nonneg t dp

section DirectLoopLemmas

variable (t : Desc) (thr : ℚ)

theorem directLoop_cons_skip (q : Profile) (rest : List Profile)
    (best : Option (Profile × ℚ)) (n : ℕ) (hq : q.faceDescriptor = none) :
    directLoop t thr (q :: rest) best n = directLoop t thr rest best n := by
  simp [directLoop, hq]

theorem directLoop_cons_nan (q : Profile) (rest : List Profile)
    (best : Option (Profile × ℚ)) (n : ℕ) (dsc : Desc)
    (hq : q.faceDescriptor = some dsc) (hs : jsSumSq t dsc = none) :
    directLoop t thr (q :: rest) best n = directLoop t thr rest best (n + 1) := by
  simp [directLoop, hq, hs]

theorem directLoop_cons_upd (q : Profile) (rest : List Profile)
    (best : Option (Profile × ℚ)) (n : ℕ) (dsc : Desc) (d : ℚ)
    (hq : q.faceDescriptor = some dsc) (hs : jsSumSq t dsc = some d)
    (hc : sqrtLtQ d thr ∧ ltBest d best) :
    directLoop t thr (q :: rest) best n = directLoop t thr rest (some (q, d)) (n + 1) := by
  simp [directLoop, hq, hs, hc]

theorem directLoop_cons_keep (q : Profile) (rest : List Profile)
    (best : Option (Profile × ℚ)) (n : ℕ) (dsc : Desc) (d : ℚ)
    (hq : q.faceDescriptor = some dsc) (hs : jsSumSq t dsc = some d)
    (hc : ¬(sqrtLtQ d thr ∧ ltBest d best)) :
    directLoop t thr (q :: rest) best n = directLoop t thr rest best (n + 1) := by
  simp only [directLoop, hq, hs]
  rw [if_neg hc]

/-- Once the loop holds a best candidate it never returns `null`. -/
theorem directLoop_some_of_best (l : List Profile) (b : Profile × ℚ) (n : ℕ) :
    (directLoop t thr l (some b) n).1 ≠ none := by
  induction l generalizing b n with
  | nil => simp [directLoop]
  | cons q rest ih =>
    cases hq : q.faceDescriptor with
    | none => rw [directLoop_cons_skip t thr q rest _ n hq]; exact ih b n
    | some dsc =>
      cases hs : jsSumSq t dsc with
      | none => rw [directLoop_cons_nan t thr q rest _ n dsc hq hs]; exact ih b (n + 1)
      | some d =>
        by_cases hc : sqrtLtQ d thr ∧ ltBest d (some b)
        · rw [directLoop_cons_upd t thr q rest _ n dsc d hq hs hc]; exact ih (q, d) (n + 1)
        · rw [directLoop_cons_keep t thr q rest _ n dsc d hq hs hc]; exact ih b (n + 1)

/-- The loop returns `null` exactly when it started without a best and no
candidate passes the strict per-candidate threshold test. -/
theorem directLoop_none_iff (l : List Profile) (best : Option (Profile × ℚ)) (n : ℕ) :
    (directLoop t thr l best n).1 = none ↔
      best = none ∧ ∀ p ∈ l, ∀ dp, p.faceDescriptor = some dp →
        ∀ e, jsSumSq t dp = some e → ¬ sqrtLtQ e thr := by
  induction l generalizing best n with
  | nil => simp [directLoop]
  | cons q rest ih =>
    cases hq : q.faceDescriptor with
    | none =>
      rw [directLoop_cons_skip t thr q rest best n hq, ih best n]
      constructor
      · rintro ⟨h1, h2⟩
        refine ⟨h1, ?_⟩
        intro p hp dp hdp e he
        rcases List.mem_cons.mp hp with rfl | hp
        · rw [hq] at hdp; exact absurd hdp (by simp)
        · exact h2 p hp dp hdp e he
      · rintro ⟨h1, h2⟩
        exact ⟨h1, fun p hp dp hdp e he => h2 p (List.mem_cons_of_mem q hp) dp hdp e he⟩
    | some dsc =>
      cases hs : jsSumSq t dsc with
      | none =>
        rw [directLoop_cons_nan t thr q rest best n dsc hq hs, ih best (n + 1)]
        constructor
        · rintro ⟨h1, h2⟩
          refine ⟨h1, ?_⟩
          intro p hp dp hdp e he
          rcases List.mem_cons.mp hp with rfl | hp
          · rw [hq] at hdp
            have : dsc = dp := Option.some_injective _ hdp
            rw [← this, hs] at he
            exact absurd he (by simp)
          · exact h2 p hp dp hdp e he
        · rintro ⟨h1, h2⟩
          exact ⟨h1, fun p hp dp hdp e he => h2 p (List.mem_cons_of_mem q hp) dp hdp e he⟩
      | some d =>
        by_cases hc : sqrtLtQ d thr ∧ ltBest d best
        · rw [directLoop_cons_upd t thr q rest best n dsc d hq hs hc]
          constructor
          · intro h
            exact absurd h (directLoop_some_of_best t thr rest (q, d) (n + 1))
          · rintro ⟨h1, h2⟩
            exfalso
            exact h2 q (List.mem_cons_self q rest) dsc hq d hs hc.1
        · rw [directLoop_cons_keep t thr q rest best n dsc d hq hs hc, ih best (n + 1)]
          constructor
          · rintro ⟨h1, h2⟩
            refine ⟨h1, ?_⟩
            intro p hp dp hdp e he
            rcases List.mem_cons.mp hp with rfl | hp
            · rw [hq] at hdp
              have hdd : dsc = dp := Option.some_injective _ hdp
              rw [← hdd, hs] at he
              have hed : e = d := (Option.some_injective _ he).symm
              subst hed
              intro hlt
              subst h1
              exact hc ⟨hlt, trivial⟩
            · exact h2 p hp dp hdp e he
          · rintro ⟨h1, h2⟩
            exact ⟨h1, fun p hp dp hdp e he => h2 p (List.mem_cons_of_mem q hp) dp hdp e he⟩

/-- Provenance of a returned match: it is the initial best or a candidate
from the list that passed the threshold test with its own distance. -/
theorem directLoop_some_src (l : List Profile) (best : Option (Profile × ℚ)) (n : ℕ)
    (q : Profile) (d : ℚ) (h : (directLoop t thr l best n).1 = some (q, d)) :
    best = some (q, d) ∨
      (q ∈ l ∧ ∃ dq, q.faceDescriptor = some dq ∧ jsSumSq t dq = some d ∧ sqrtLtQ d thr) := by
  induction l generalizing best n with
  | nil =>
    left
    simpa [directLoop] using h
  | cons q' rest ih =>
    cases hq : q'.faceDescriptor with
    | none =>
      rw [directLoop_cons_skip t thr q' rest best n hq] at h
      rcases ih best n h with h1 | ⟨h1, h2⟩
      · exact Or.inl h1
      · exact Or.inr ⟨List.mem_cons_of_mem q' h1, h2⟩
    | some dsc =>
      cases hs : jsSumSq t dsc with
      | none =>
        rw [directLoop_cons_nan t thr q' rest best n dsc hq hs] at h
        rcases ih best (n + 1) h with h1 | ⟨h1, h2⟩
        · exact Or.inl h1
        · exact Or.inr ⟨List.mem_cons_of_mem q' h1, h2⟩
      | some d' =>
        by_cases hc : sqrtLtQ d' thr ∧ ltBest d' best
        · rw [directLoop_cons_upd t thr q' rest best n dsc d' hq hs hc] at h
          rcases ih (some (q', d')) (n + 1) h with h1 | ⟨h1, h2⟩
          · have hqq : q' = q ∧ d' = d := by
              have := Option.some_injective _ h1
              exact ⟨congrArg Prod.fst this, congrArg Prod.snd this⟩
            rcases hqq with ⟨rfl, rfl⟩
            exact Or.inr ⟨List.mem_cons_self q' rest, dsc, hq, hs, hc.1⟩
          · exact Or.inr ⟨List.mem_cons_of_mem q' h1, h2⟩
        · rw [directLoop_cons_keep t thr q' rest best n dsc d' hq hs hc] at h
          rcases ih best (n + 1) h with h1 | ⟨h1, h2⟩
          · exact Or.inl h1
          · exact Or.inr ⟨List.mem_cons_of_mem q' h1, h2⟩

/-- Minimality of a returned match's distance: it is at most the initial
best's distance and at most every below-threshold candidate distance in
the list. -/
theorem directLoop_min (l : List Profile) (best : Option (Profile × ℚ)) (n : ℕ)
    (q : Profile) (d : ℚ) (h : (directLoop t thr l best n).1 = some (q, d)) :
    (∀ b, best = some b → d ≤ b.2) ∧
      ∀ p ∈ l, ∀ dp, p.faceDescriptor = some dp →
        ∀ e, jsSumSq t dp = some e → sqrtLtQ e thr → d ≤ e := by
  induction l generalizing best n with
  | nil =>
    have hb : best = some (q, d) := by simpa [directLoop] using h
    subst hb
    refine ⟨?_, by simp⟩
    rintro b hb
    rw [← Option.some_injective _ hb]
  | cons q' rest ih =>
    cases hq : q'.faceDescriptor with
    | none =>
      rw [directLoop_cons_skip t thr q' rest best n hq] at h
      rcases ih best n h with ⟨h1, h2⟩
      refine ⟨h1, ?_⟩
      intro p hp dp hdp e he hlt
      rcases List.mem_cons.mp hp with rfl | hp
      · rw [hq] at hdp; exact absurd hdp (by simp)
      · exact h2 p hp dp hdp e he hlt
    | some dsc =>
      cases hs : jsSumSq t dsc with
      | none =>
        rw [directLoop_cons_nan t thr q' rest best n dsc hq hs] at h
        rcases ih best (n + 1) h with ⟨h1, h2⟩
        refine ⟨h1, ?_⟩
        intro p hp dp hdp e he hlt
        rcases List.mem_cons.mp hp with rfl | hp
        · rw [hq] at hdp
          have hdd : dsc = dp := Option.some_injective _ hdp
          rw [← hdd, hs] at he
          exact absurd he (by simp)
        · exact h2 p hp dp hdp e he hlt
      | some d' =>
        by_cases hc : sqrtLtQ d' thr ∧ ltBest d' best
        · rw [directLoop_cons_upd t thr q' rest best n dsc d' hq hs hc] at h
          rcases ih (some (q', d')) (n + 1) h with ⟨h1, h2⟩
          have hdd' : d ≤ d' := h1 (q', d') rfl
          constructor
          · rintro b rfl
            have hlt : d' < b.2 := hc.2
            exact le_of_lt (lt_of_le_of_lt hdd' hlt)
          · intro p hp dp hdp e he hlt
            rcases List.mem_cons.mp hp with rfl | hp
            · rw [hq] at hdp
              have hdd : dsc = dp := Option.some_injective _ hdp
              rw [← hdd, hs] at he
              rw [← Option.some_injective _ he]
              exact hdd'
            · exact h2 p hp dp hdp e he hlt
        · rw [directLoop_cons_keep t thr q' rest best n dsc d' hq hs hc] at h
          rcases ih best (n + 1) h with ⟨h1, h2⟩
          refine ⟨h1, ?_⟩
          intro p hp dp hdp e he hlt
          rcases List.mem_cons.mp hp with rfl | hp
          · rw [hq] at hdp
            have hdd : dsc = dp := Option.some_injective _ hdp
            rw [← hdd, hs] at he
            have hed : e = d' := (Option.some_injective _ he).symm
            subst hed
            rcases not_and_or.mp hc with hc1 | hc2
            · exact absurd hlt hc1
            · unfold ltBest at hc2
              cases best with
              | none => exact absurd trivial hc2
              | some b =>
                have hbe : b.2 ≤ e := le_of_not_lt hc2
                exact le_trans (h1 b rfl) hbe
          · exact h2 p hp dp hdp e he hlt

/-- Inserting a candidate without a descriptor anywhere in the list
changes nothing: it is skipped silently and the scan continues. -/
theorem directLoop_skip_invariant (l1 l2 : List Profile) (best : Option (Profile × ℚ))
    (n : ℕ) (i : ℕ) :
    directLoop t thr (l1 ++ ⟨i, none⟩ :: l2) best n = directLoop t thr (l1 ++ l2) best n := by
  induction l1 generalizing best n with
  | nil =>
    simpa using directLoop_cons_skip t thr ⟨i, none⟩ l2 best n rfl
  | cons q rest ih =>
    cases hq : q.faceDescriptor with
    | none =>
      rw [List.cons_append, List.cons_append, directLoop_cons_skip t thr q _ best n hq,
        directLoop_cons_skip t thr q _ best n hq]
      exact ih best n
    | some dsc =>
      cases hs : jsSumSq t dsc with
      | none =>
        rw [List.cons_append, List.cons_append, directLoop_cons_nan t thr q _ best n dsc hq hs,
          directLoop_cons_nan t thr q _ best n dsc hq hs]
        exact ih best (n + 1)
      | some d =>
        by_cases hc : sqrtLtQ d thr ∧ ltBest d best
        · rw [List.cons_append, List.cons_append,
            directLoop_cons_upd t thr q _ best n dsc d hq hs hc,
            directLoop_cons_upd t thr q _ best n dsc d hq hs hc]
          exact ih (some (q, d)) (n + 1)
        · rw [List.cons_append, List.cons_append,
            directLoop_cons_keep t thr q _ best n dsc d hq hs hc,
            directLoop_cons_keep t thr q _ best n dsc d hq hs hc]
          exact ih best (n + 1)

end DirectLoopLemmas

theorem jsSumSq_of_le (t dp : Desc) (h : t.length ≤ dp.length) :
    jsSumSq t dp = some (sumSqRef t dp) := by
  unfold jsSumSq
  rw [if_neg (by omega)]

theorem euclid_mono (t d1 d2 : Desc) (h : sumSqRef t d1 ≤ sumSqRef t d2) :
    euclideanDistance t d1 ≤ euclideanDistance t d2 :=
  Real.sqrt_le_sqrt (by exact_mod_cast h)

/-- `sqrtLtQ` against a threshold, stated with `euclideanDistance`. -/
theorem sqrtLtQ_sumSqRef_iff (t dp : Desc) (thr : ℚ) :
    sqrtLtQ (sumSqRef t dp) thr ↔ euclideanDistance t dp < (thr : ℝ) :=
  sqrtLtQ_iff_sqrt (sumSqRef t dp) thr (sumSqRef_nonneg t dp)

/-- Model-load state of `src/utils/db.js` (module-level `modelsLoaded`,
`modelLoadingPromise`, `lastModelLoadTime`), extended with a
load-invocation counter (`loadsStarted`, which also serves as the identity
of the promise a load creates) and the last observed clock value, used to
express that time is monotone across events. -/
structure DbLoader where
  modelsLoaded : Bool
  loadingId : Option ℕ
  lastModelLoadTime : ℕ
  loadsStarted : ℕ
  clock : ℕ
deriving DecidableEq, Repr

/-- `MODEL_VALIDITY_DURATION = 15 * 60 * 1000` (`src/utils/db.js` line 99). -/
def MODEL_VALIDITY_DURATION : ℕ := 15 * 60 * 1000

/-- What a call to `loadModels` hands back: an immediately resolved
promise, the outstanding in-flight promise, or a freshly created loading
promise. -/
inductive LoadCall where
  | resolved
  | joined (p : ℕ)
  | started (p : ℕ)
deriving DecidableEq, Repr

/-- `loadModels` of `src/utils/db.js` lines 119–162, called at time `now`
(`Date.now()`): first the freshness check on `modelsLoaded` and
`lastModelLoadTime`, then the in-flight promise check, otherwise a new
load is started. -/
def dbLoadModels (now : ℕ) (st : DbLoader) : LoadCall × DbLoader :=
  if st.modelsLoaded = true ∧ now - st.lastModelLoadTime < MODEL_VALIDITY_DURATION then
    (.resolved, { st with clock := now })
  else
    match st.loadingId with
    | some p => (.joined p, { st with clock := now })
    | none =>
      (.started st.loadsStarted,
        { st with loadingId := some st.loadsStarted,
                  loadsStarted := st.loadsStarted + 1, clock := now })

/-- Successful completion of the in-flight load (`then` callback, lines
144–154): set `modelsLoaded`, record the time, clear the promise — all in
one synchronous callback. -/
def dbLoadSuccess (now : ℕ) (st : DbLoader) : DbLoader :=
  { st with modelsLoaded := true, lastModelLoadTime := now, loadingId := none, clock := now }

/-- Failed completion (`catch`, lines 155–159): clear the promise and
rethrow; the `modelsLoaded` flag and the timestamp are untouched. -/
def dbLoadFailure (st : DbLoader) : DbLoader :=
  { st with loadingId := none }

def dbLoaderInit : DbLoader := ⟨false, none, 0, 0, 0⟩

/-- States of the `db.js` loader reachable from module initialization by
`loadModels` calls and completions of the in-flight promise, with a
monotone clock. -/
inductive DbReach : DbLoader → Prop
  | init : DbReach dbLoaderInit
  | call (st : DbLoader) (now : ℕ) (h : DbReach st) (hn : st.clock ≤ now) :
      DbReach (dbLoadModels now st).2
  | success (st : DbLoader) (now : ℕ) (h : DbReach st) (hn : st.clock ≤ now)
      (hl : st.loadingId.isSome) : DbReach (dbLoadSuccess now st)
  | failure (st : DbLoader) (h : DbReach st) (hl : st.loadingId.isSome) :
      DbReach (dbLoadFailure st)

/-- Invariant of reachable loader states: the recorded load time never
exceeds the clock, and while a load is in flight the models are either not
loaded or already stale — which is what makes the freshness check unable
to bypass the in-flight promise. -/
def DbLoaderInv (st : DbLoader) : Prop :=
  st.lastModelLoadTime ≤ st.clock ∧
    (st.loadingId.isSome = true →
      st.modelsLoaded = false ∨
        st.lastModelLoadTime + MODEL_VALIDITY_DURATION ≤ st.clock)

theorem dbReach_inv (st : DbLoader) (h : DbReach st) : DbLoaderInv st := by
  induction h with
  | init => exact ⟨le_rfl, by simp [dbLoaderInit]⟩
  | call st now h hn ih =>
    rcases ih with ⟨ih1, ih2⟩
    unfold dbLoadModels
    by_cases hc : st.modelsLoaded = true ∧ now - st.lastModelLoadTime < MODEL_VALIDITY_DURATION
    · rw [if_pos hc]
      refine ⟨by simpa using le_trans ih1 hn, ?_⟩
      intro hs
      rcases ih2 hs with h1 | h1
      · exact Or.inl h1
      · exact Or.inr (by simp; omega)
    · rw [if_neg hc]
      cases hid : st.loadingId with
      | some p =>
        refine ⟨by simpa using le_trans ih1 hn, ?_⟩
        intro hs
        rcases ih2 (by simp [hid]) with h1 | h1
        · exact Or.inl h1
        · exact Or.inr (by simp; omega)
      | none =>
        refine ⟨by simpa using le_trans ih1 hn, ?_⟩
        intro hs
        rcases not_and_or.mp hc with h1 | h1
        · exact Or.inl (by simpa using h1)
        · right
          simp only []
          omega
  | success st now h hn hl ih =>
    exact ⟨le_rfl, by simp [dbLoadSuccess]⟩
  | failure st h hl ih =>
    rcases ih with ⟨ih1, ih2⟩
    exact ⟨ih1, by simp [dbLoadFailure]⟩

/-- Iterated same-instant `loadModels` calls (concurrent callers). -/
def dbCalls : ℕ → ℕ → DbLoader → DbLoader
  | 0, _, st => st
  | k + 1, now, st => dbCalls k now (dbLoadModels now st).2

theorem dbLoadModels_joined (st : DbLoader) (p : ℕ) (now : ℕ)
    (hinv : DbLoaderInv st) (hp : st.loadingId = some p) (hn : st.clock ≤ now) :
    dbLoadModels now st = (.joined p, { st with clock := now }) := by
  rcases hinv with ⟨h1, h2⟩
  rcases h2 (by simp [hp]) with h3 | h3
  · unfold dbLoadModels
    rw [if_neg (by simp [h3]), hp]
  · unfold dbLoadModels
    rw [if_neg (by intro hcon; omega), hp]

theorem dbCalls_joined_stable (k : ℕ) (now : ℕ) :
    ∀ st : DbLoader, st.loadingId.isSome = true →
      ¬(st.modelsLoaded = true ∧ now - st.lastModelLoadTime < MODEL_VALIDITY_DURATION) →
      (dbCalls k now st).loadsStarted = st.loadsStarted ∧
        (dbCalls k now st).loadingId = st.loadingId := by
  induction k with
  | zero => intro st h1 h2; exact ⟨rfl, rfl⟩
  | succ m ih =>
    intro st h1 h2
    cases hp : st.loadingId with
    | none => rw [hp] at h1; exact absurd h1 (by simp)
    | some p =>
      show (dbCalls m now (dbLoadModels now st).2).loadsStarted = st.loadsStarted ∧
        (dbCalls m now (dbLoadModels now st).2).loadingId = some p
      have hstep : (dbLoadModels now st).2 = { st with clock := now } := by
        unfold dbLoadModels
        rw [if_neg h2, hp]
      rw [hstep]
      have hres := ih { st with clock := now } (by simpa using h1) (by simpa using h2)
      exact ⟨hres.1, hres.2.trans hp⟩

/-- Server loader state (`src/server/utils/faceRecognition.js` lines
22–23): `modelsLoaded`, `modelLoadingPromise`, plus the invocation
counter/promise identity. -/
structure SrvLoader where
  modelsLoaded : Bool
  loadingId : Option ℕ
  loadsStarted : ℕ
deriving DecidableEq, Repr

/-- `loadModels` of `src/server/utils/faceRecognition.js` lines 52–89: the
in-flight promise is returned first (line 54), then the loaded flag short
circuits (line 57), otherwise a new load starts. -/
def srvLoadModels (st : SrvLoader) : LoadCall × SrvLoader :=
  match st.loadingId with
  | some p => (.joined p, st)
  | none =>
    if st.modelsLoaded = true then (.resolved, st)
    else (.started st.loadsStarted,
      { st with loadingId := some st.loadsStarted, loadsStarted := st.loadsStarted + 1 })

/-- Successful completion: `modelsLoaded = true` (line 76), then the
`finally` clears the promise (lines 82–85). -/
def srvLoadSuccess (st : SrvLoader) : SrvLoader :=
  { st with modelsLoaded := true, loadingId := none }

/-- Failed completion: the `catch` rethrows (line 81) and the `finally`
clears the promise; the loaded flag is untouched. -/
def srvLoadFailure (st : SrvLoader) : SrvLoader :=
  { st with loadingId := none }

def srvCalls : ℕ → SrvLoader → SrvLoader
  | 0, st => st
  | k + 1, st => srvCalls k (srvLoadModels st).2

theorem srvLoadModels_joined (st : SrvLoader) (p : ℕ) (hp : st.loadingId = some p) :
    srvLoadModels st = (.joined p, st) := by
  unfold srvLoadModels
  rw [hp]

theorem srvCalls_joined_stable (k : ℕ) :
    ∀ st : SrvLoader, st.loadingId.isSome = true → srvCalls k st = st := by
  induction k with
  | zero => intro st h1; rfl
  | succ m ih =>
    intro st h1
    cases hp : st.loadingId with
    | none => rw [hp] at h1; exact absurd h1 (by simp)
    | some p =>
      show srvCalls m (srvLoadModels st).2 = st
      rw [srvLoadModels_joined st p hp]
      exact ih st h1

section JsMap

variable {κ : Type} [DecidableEq κ]

/-- JavaScript `Map.get` / `Map.has` over the insertion-ordered entry
list. -/
def mapLookup (k : κ) : List (κ × Desc) → Option Desc
  | [] => none
  | (k', v) :: rest => if k = k' then some v else mapLookup k rest

/-- JavaScript `Map.set`: replace in place when the key exists, append
otherwise. -/
def mapSet (k : κ) (v : Desc) : List (κ × Desc) → List (κ × Desc)
  | [] => [(k, v)]
  | (k', v') :: rest => if k = k' then (k', v) :: rest else (k', v') :: mapSet k v rest

/-- JavaScript `Map.delete` (with the unique keys a `Map` maintains,
filtering equals deleting the single entry). -/
def mapDelete (k : κ) (m : List (κ × Desc)) : List (κ × Desc) :=
  m.filter (fun e => e.1 ≠ k)

theorem mapSet_absent (k : κ) (v : Desc) (m : List (κ × Desc))
    (h : mapLookup k m = none) : mapSet k v m = m ++ [(k, v)] := by
  induction m with
  | nil => rfl
  | cons e rest ih =>
    rcases e with ⟨k', v'⟩
    unfold mapLookup at h
    unfold mapSet
    by_cases hk : k = k'
    · rw [if_pos hk] at h; exact absurd h (by simp)
    · rw [if_neg hk] at h
      rw [if_neg hk, ih h]
      rfl

theorem mapLookup_append_right (k : κ) (m l : List (κ × Desc))
    (h : mapLookup k m = none) : mapLookup k (m ++ l) = mapLookup k l := by
  induction m with
  | nil => rfl
  | cons e rest ih =>
    rcases e with ⟨k', v'⟩
    unfold mapLookup at h
    by_cases hk : k = k'
    · rw [if_pos hk] at h; exact absurd h (by simp)
    · rw [if_neg hk] at h
      show (if k = k' then some v' else mapLookup k (rest ++ l)) = mapLookup k l
      rw [if_neg hk]
      exact ih h

theorem mapLookup_delete_ne (k k0 : κ) (m : List (κ × Desc)) (h : k ≠ k0) :
    mapLookup k (mapDelete k0 m) = mapLookup k m := by
  induction m with
  | nil => rfl
  | cons e rest ih =>
    rcases e with ⟨k', v'⟩
    unfold mapDelete
    by_cases hk : k' = k0
    · rw [List.filter_cons]
      rw [show (decide ((k', v').1 ≠ k0)) = false by simp [hk]]
      simp only [Bool.false_eq_true, if_false]
      show mapLookup k (mapDelete k0 rest) = mapLookup k ((k', v') :: rest)
      rw [ih]
      show mapLookup k rest = if k = k' then some v' else mapLookup k rest
      rw [if_neg (by rw [hk]; exact h)]
    · rw [List.filter_cons]
      rw [show (decide ((k', v').1 ≠ k0)) = true by simp [hk]]
      simp only [if_true]
      show (if k = k' then some v' else mapLookup k (mapDelete k0 rest))
        = if k = k' then some v' else mapLookup k rest
      by_cases hkk : k = k'
      · rw [if_pos hkk, if_pos hkk]
      · rw [if_neg hkk, if_neg hkk, ih]

theorem mapLookup_delete_none (k k0 : κ) (m : List (κ × Desc))
    (h : mapLookup k m = none) : mapLookup k (mapDelete k0 m) = none := by
  by_cases hk : k = k0
  · subst hk
    induction m with
    | nil => rfl
    | cons e rest ih =>
      rcases e with ⟨k', v'⟩
      unfold mapLookup at h
      by_cases hx : k = k'
      · rw [if_pos hx] at h; exact absurd h (by simp)
      · rw [if_neg hx] at h
        unfold mapDelete
        rw [List.filter_cons]
        rw [show (decide ((k', v').1 ≠ k)) = true by simp; exact fun hc => hx hc.symm]
        simp only [if_true]
        show (if k = k' then some v' else mapLookup k (mapDelete k rest)) = none
        rw [if_neg hx]
        exact ih h
  · rw [mapLookup_delete_ne k k0 m hk]
    exact h

theorem mapDelete_length_le (k : κ) (m : List (κ × Desc)) :
    (mapDelete k m).length ≤ m.length :=
  List.length_filter_le _ m

theorem mapDelete_cons_self_length (k : κ) (v : Desc) (m : List (κ × Desc)) :
    (mapDelete k ((k, v) :: m)).length ≤ m.length := by
  unfold mapDelete
  rw [List.filter_cons]
  rw [show (decide ((k, v).1 ≠ k)) = false by simp]
  simp only [Bool.false_eq_true, if_false]
  exact List.length_filter_le _ m

end JsMap

/-- One step of the djb2-style hash in `hashBuffer` (`src/utils/db.js`
line 374): JavaScript `((hash << 5) + hash) ^ data[i]` — the shift wraps
to 32 bits, the addition is exact, the xor wraps again; the unsigned
32-bit residue is tracked (the JS value is its signed reading, and
`toString(36)` is injective in it). -/
def hashStep (h b : ℕ) : ℕ := Nat.xor ((h * 32 % 2 ^ 32 + h) % 2 ^ 32) b

/-- The sampling loop of `hashBuffer`
(`for (i = 0; i < data.length; i += step)`); `fuel` bounds the iteration
count structurally, and `data.length` iterations always suffice because
`step ≥ 1`. -/
def hashGo (data : List ℕ) (step : ℕ) : ℕ → ℕ → ℕ → ℕ
  | 0, h, _ => h
  | fuel + 1, h, i =>
    if i < data.length then hashGo data step fuel (hashStep h (data.getD i 0)) (i + step)
    else h

/-- `hashBuffer` of `src/utils/db.js` lines 364–378: djb2 seeded with
5381 over roughly 100 evenly sampled bytes. -/
def hashBuffer (data : List ℕ) : ℕ :=
  let totalBytes := min 100 data.length
  let step := max 1 (data.length / totalBytes)
  hashGo data step data.length 5381 0

/-- Base64 encoding with characters as their sextet values (64 = the `=`
padding); the concrete character alphabet is injective, so this value list
is faithfully the string `buffer.toString('base64')`. -/
def base64 : List ℕ → List ℕ
  | [] => []
  | [a] => [a / 4, a % 4 * 16, 64, 64]
  | [a, b] => [a / 4, a % 4 * 16 + b / 16, b % 16 * 4, 64]
  | a :: b :: c :: rest =>
    (a / 4) :: (a % 4 * 16 + b / 16) :: (b % 16 * 4 + c / 64) :: (c % 64) :: base64 rest

/-- The cache key of `src/server/utils/faceRecognition.js` line 140:
`Buffer.from(imageBuffer).toString('base64').slice(0, 50)`. -/
def srvKey (bytes : List ℕ) : List ℕ := (base64 bytes).take 50

/-- Outcomes of the asynchronous steps of one extraction for one specific
image: whether the model load (if one is awaited) rejects and with which
error, whether image decoding resolves, whether the initial detection
finds a face, and the landmark/descriptor result.  A deterministic
pipeline is an `Oracle` per byte buffer. -/
structure Oracle where
  loadErr : Option ℕ
  decodeOk : Bool
  det1 : Bool
  det2 : Option Desc
deriving DecidableEq, Repr

/-- What an extraction promise settles to: a descriptor, `null`, or a
rejection carrying the error. -/
inductive ExtractResult where
  | ok (d : Desc)
  | noDesc
  | threw (e : ℕ)
deriving DecidableEq, Repr

/-- Module state of `src/utils/db.js`: the loader globals, the
`descriptorCache` map, the `cacheAccessOrder` array (least recently used
first), and an instrumentation counter of pipeline (detection)
invocations. -/
structure DbState where
  loader : DbLoader
  cache : List (ℕ × Desc)
  accessOrder : List ℕ
  pipelineCount : ℕ
deriving DecidableEq, Repr

/-- `CACHE_SIZE_LIMIT = 100` (`src/utils/db.js` line 107). -/
def CACHE_SIZE_LIMIT : ℕ := 100

/-- `updateCacheAccess` of `src/utils/db.js` lines 210–219: splice the key
out of its current position (if present) and push it to the back (most
recently used). -/
def updateCacheAccess (k : ℕ) (order : List ℕ) : List ℕ := order.erase k ++ [k]

/-- The body of `extractFaceDescriptor` of `src/utils/db.js` after the
models are available (lines 268–350): hash, cache probe with LRU refresh,
decode, initial detection, descriptor computation, then LRU insert with
eviction at `CACHE_SIZE_LIMIT` (`shift` of the access order; on an empty
order the source deletes `undefined`, a no-op). -/
def dbExtractBody (o : Oracle) (bytes : List ℕ) (st : DbState) : ExtractResult × DbState :=
  let key := hashBuffer bytes
  match mapLookup key st.cache with
  | some d => (.ok d, { st with accessOrder := updateCacheAccess key st.accessOrder })
  | none =>
    if o.decodeOk = false then (.noDesc, st)
    else
      let st1 := { st with pipelineCount := st.pipelineCount + 1 }
      if o.det1 = false then (.noDesc, st1)
      else
        let st2 := { st1 with pipelineCount := st1.pipelineCount + 1 }
        match o.det2 with
        | none => (.noDesc, st2)
        | some d =>
          let evicted :=
            if CACHE_SIZE_LIMIT ≤ st2.cache.length then
              match st2.accessOrder with
              | [] => st2
              | k0 :: rest => { st2 with cache := mapDelete k0 st2.cache, accessOrder := rest }
            else st2
          (.ok d,
            { evicted with cache := mapSet key d evicted.cache,
                           accessOrder := updateCacheAccess key evicted.accessOrder })

/-- `extractFaceDescriptor` of `src/utils/db.js` lines 261–356.  The whole
body — `loadModels()` included — sits inside the `try`, whose `catch`
(lines 351–355) returns `null`: a model-load failure surfaces as `null`,
not as a rejection.  The await on a started or joined load is settled
according to the oracle (single-caller trace). -/
def dbExtract (o : Oracle) (bytes : List ℕ) (now : ℕ) (st : DbState) :
    ExtractResult × DbState :=
  let lc := dbLoadModels now st.loader
  match lc.1 with
  | .resolved => dbExtractBody o bytes { st with loader := lc.2 }
  | _ =>
    match o.loadErr with
    | some _ => (.noDesc, { st with loader := dbLoadFailure lc.2 })
    | none => dbExtractBody o bytes { st with loader := dbLoadSuccess now lc.2 }

/-- Module state of `src/server/utils/faceRecognition.js`: loader globals,
the `descriptorCache` map, and the pipeline invocation counter. -/
structure SrvState where
  loader : SrvLoader
  cache : List (List ℕ × Desc)
  pipelineCount : ℕ
deriving DecidableEq, Repr

/-- The cache update of the server `extractFaceDescriptor` (lines
207–215): `cache.set(key, d)` followed, when the size exceeds 100, by
deletion of the first entry in insertion order
(`descriptorCache.keys().next().value`) — FIFO, not LRU. -/
def fifoInsert {κ : Type} [DecidableEq κ] (key : κ) (d : Desc)
    (cache : List (κ × Desc)) : List (κ × Desc) :=
  let c1 := mapSet key d cache
  if 100 < c1.length then
    match c1 with
    | [] => c1
    | e :: _ => mapDelete e.1 c1
  else c1

/-- The `try` body of the server `extractFaceDescriptor` (lines 151–218):
preprocess/decode, initial detection, descriptor computation, then the
FIFO cache insert.  Any rejection inside is caught to `null`. -/
def srvExtractBody (o : Oracle) (key : List ℕ) (st : SrvState) : ExtractResult × SrvState :=
  if o.decodeOk = false then (.noDesc, st)
  else
    let st1 := { st with pipelineCount := st.pipelineCount + 1 }
    if o.det1 = false then (.noDesc, st1)
    else
      let st2 := { st1 with pipelineCount := st1.pipelineCount + 1 }
      match o.det2 with
      | none => (.noDesc, st2)
      | some d => (.ok d, { st2 with cache := fifoInsert key d st2.cache })

/-- `extractFaceDescriptor` of `src/server/utils/faceRecognition.js`
lines 138–224.  The cache is probed before `loadModels()` (lines
140–146), and the `loadModels()` await sits outside the `try` (line 149):
a model-load failure propagates to the caller as a rejection. -/
def srvExtract (o : Oracle) (bytes : List ℕ) (st : SrvState) :
    ExtractResult × SrvState :=
  let key := srvKey bytes
  match mapLookup key st.cache with
  | some d => (.ok d, st)
  | none =>
    let lc := srvLoadModels st.loader
    match lc.1 with
    | .resolved => srvExtractBody o key { st with loader := lc.2 }
    | _ =>
      match o.loadErr with
      | some e => (.threw e, { st with loader := srvLoadFailure lc.2 })
      | none => srvExtractBody o key { st with loader := srvLoadSuccess lc.2 }

end FaceAuth

namespace FaceAuth

/-- C9: for every pair of equal-length descriptor vectors, the loop-unrolled
distance computations of the source (stride 8 in `src/utils/db.js` and the
third variant, stride 4 in `src/server/utils/faceRecognition.js`, with
out-of-range terms contributing 0) equal the reference Euclidean distance:
the square root of the sum over all components of the squared componentwise
difference. -/
theorem C9_unrolled_eq_reference (t p : Desc) (h : t.length = p.length) :
    Real.sqrt ((sumSq8 t p : ℚ) : ℝ) = euclideanDistance t p ∧
    Real.sqrt ((sumSq4 t p : ℚ) : ℝ) = euclideanDistance t p ∧
    sumSqRef t p = (List.zipWith (fun a b => (a - b) ^ 2) t p).sum := by
  unfold euclideanDistance
  rw [sumSq8_eq_ref, sumSq4_eq_ref]
  exact ⟨rfl, rfl, sumSqRef_eq_zip t p h⟩

theorem C9_witness :
    ([0, 1] : Desc).length = ([1, 0] : Desc).length ∧
      (Real.sqrt ((sumSq8 [0, 1] [1, 0] : ℚ) : ℝ) = euclideanDistance [0, 1] [1, 0] ∧
       Real.sqrt ((sumSq4 [0, 1] [1, 0] : ℚ) : ℝ) = euclideanDistance [0, 1] [1, 0] ∧
       sumSqRef [0, 1] [1, 0] =
         (List.zipWith (fun a b => (a - b) ^ 2) [0, 1] ([1, 0] : Desc)).sum) :=
  ⟨rfl, C9_unrolled_eq_reference [0, 1] [1, 0] rfl⟩

/-- C7: for every query descriptor and every threshold (and any core
count for the parallel wrapper), every findMatchingFace implementation
returns null on an empty candidate list and performs no distance
computation (the instrumentation count is 0). -/
theorem C7_empty_no_match (t : Desc) (thr : ℚ) (cores : ℕ) :
    findMatchingFaceDb t [] thr = (none, 0) ∧
    findMatchingFaceSrv cores t [] thr = (.null, 0) ∧
    findMatchingFaceP3 t [] thr = (none, 0) :=
  ⟨rfl, rfl, rfl⟩

/-- C1 counterexample: with threshold 0.6, `findMatchingFace` of
`src/utils/db.js` returns early on its first candidate (distance 0.4,
below `0.7 * threshold = 0.42`) after a single distance computation,
although the second candidate's Euclidean distance (0) is strictly
smaller: the candidate set is not fully scanned and the returned candidate
is not one of minimum distance. -/
theorem C1_counterexample :
    findMatchingFaceDb [0] [(⟨1, some [2/5]⟩ : Profile), ⟨2, some [0]⟩] (3/5)
        = (some (⟨1, some [2/5]⟩, 4/25), 1) ∧
      euclideanDistance [0] [0] < euclideanDistance [0] [2/5] := by
  constructor
  · norm_num [findMatchingFaceDb, dbMatchLoop, jsSumSq, sumSqRef, sumSqFrom, sumSqGo,
      sqTerm, sqrtLtQ, sqrtLeQ, ltBest]
  · unfold euclideanDistance
    rw [show sumSqRef [0] [0] = 0 by norm_num [sumSqRef, sumSqFrom, sumSqGo, sqTerm],
      show sumSqRef [0] [2/5] = 4/25 by norm_num [sumSqRef, sumSqFrom, sumSqGo, sqTerm]]
    rw [Rat.cast_zero, Real.sqrt_zero]
    apply Real.sqrt_pos.mpr
    norm_num

/-- C1 amended: `findMatchingFaceDirectly` (the scan actually used by the
server wrapper) returns, when it returns a match, a candidate from the
list whose Euclidean distance to the query is minimal over all candidates
with a usable descriptor (present and of at least query length); the
`db.js` `findMatchingFace` does not guarantee minimality because its early
termination (`distance < 0.7 * threshold`) can fire before a closer
candidate is seen (counterexample `C1_counterexample`). -/
theorem C1_amended_direct_minimal (t : Desc) (profiles : List Profile) (thr : ℚ)
    (q : Profile) (d : ℚ)
    (h : (findMatchingFaceDirectly t profiles thr).1 = some (q, d)) :
    q ∈ profiles ∧
      ∃ dq, q.faceDescriptor = some dq ∧ t.length ≤ dq.length ∧ d = sumSqRef t dq ∧
        ∀ p ∈ profiles, ∀ dp, p.faceDescriptor = some dp → t.length ≤ dp.length →
          euclideanDistance t dq ≤ euclideanDistance t dp := by
  unfold findMatchingFaceDirectly at h
  rcases directLoop_some_src t thr profiles none 0 q d h with h1 | ⟨hmem, dq, hdq, hsum, hlt⟩
  · exact absurd h1 (by simp)
  rcases jsSumSq_some t dq d hsum with ⟨hd, hlen⟩
  refine ⟨hmem, dq, hdq, hlen, hd, ?_⟩
  intro p hp dp hdp hlp
  rcases directLoop_min t thr profiles none 0 q d h with ⟨_, hmin⟩
  have hsomee : jsSumSq t dp = some (sumSqRef t dp) := jsSumSq_of_le t dp hlp
  by_cases hcand : sqrtLtQ (sumSqRef t dp) thr
  · have := hmin p hp dp hdp (sumSqRef t dp) hsomee hcand
    rw [hd] at this
    exact euclid_mono t dq dp this
  · rcases hlt with ⟨hthr0, hdlt⟩
    have h2 : thr ^ 2 ≤ sumSqRef t dp := by
      by_contra hcon
      exact hcand ⟨hthr0, by linarith⟩
    have h3 : d ≤ sumSqRef t dp := by linarith
    rw [hd] at h3
    exact euclid_mono t dq dp h3

theorem C1_witness :
    (findMatchingFaceDirectly [0] [(⟨1, some [0]⟩ : Profile)] 1).1
        = some (⟨1, some [0]⟩, 0) ∧
      ((⟨1, some [0]⟩ : Profile) ∈ [(⟨1, some [0]⟩ : Profile)] ∧
        ∃ dq, (⟨1, some [0]⟩ : Profile).faceDescriptor = some dq ∧
          ([0] : Desc).length ≤ dq.length ∧ (0 : ℚ) = sumSqRef [0] dq ∧
          ∀ p ∈ [(⟨1, some [0]⟩ : Profile)], ∀ dp, p.faceDescriptor = some dp →
            ([0] : Desc).length ≤ dp.length →
            euclideanDistance [0] dq ≤ euclideanDistance [0] dp) :=
  ⟨by simp [findMatchingFaceDirectly, directLoop, jsSumSq, sumSqRef, sumSqFrom, sumSqGo,
      sqTerm, sqrtLtQ, ltBest],
   C1_amended_direct_minimal [0] [⟨1, some [0]⟩] 1 ⟨1, some [0]⟩ 0
    (by simp [findMatchingFaceDirectly, directLoop, jsSumSq, sumSqRef, sumSqFrom, sumSqGo,
      sqTerm, sqrtLtQ, ltBest])⟩

/-- C2 counterexample: `findMatchingFaceDirectly` decides matches with a
strict comparison (`distance < threshold`, line 343): with one candidate
at Euclidean distance exactly equal to the threshold, the minimum distance
is ≤ the threshold yet the function returns null, contradicting the
claimed if-and-only-if with `≤`. -/
theorem C2_counterexample :
    (findMatchingFaceDirectly [0] [(⟨1, some [1]⟩ : Profile)] 1).1 = none ∧
      euclideanDistance [0] [1] ≤ ((1 : ℚ) : ℝ) := by
  constructor
  · norm_num [findMatchingFaceDirectly, directLoop, jsSumSq, sumSqRef, sumSqFrom, sumSqGo,
      sqTerm, sqrtLtQ, ltBest]
  · unfold euclideanDistance
    rw [show sumSqRef [0] [1] = 1 by norm_num [sumSqRef, sumSqFrom, sumSqGo, sqTerm]]
    rw [Rat.cast_one, Real.sqrt_one]

/-- C2 amended: for `findMatchingFaceDirectly` the decision is strict —
null is returned iff no candidate with a usable descriptor has Euclidean
distance < the threshold, and a returned match carries the minimum
distance over usable candidates, which is itself < the threshold.  (The
`db.js` variant decides with `≤` but can carry a non-minimal distance
after early termination, `C1_counterexample`.) -/
theorem C2_amended_strict_match (t : Desc) (profiles : List Profile) (thr : ℚ) :
    ((findMatchingFaceDirectly t profiles thr).1 = none ↔
      ∀ p ∈ profiles, ∀ dp, p.faceDescriptor = some dp → t.length ≤ dp.length →
        ¬ (euclideanDistance t dp < (thr : ℝ))) ∧
    ∀ q d, (findMatchingFaceDirectly t profiles thr).1 = some (q, d) →
      ∃ dq, q.faceDescriptor = some dq ∧
        Real.sqrt ((d : ℚ) : ℝ) = euclideanDistance t dq ∧
        euclideanDistance t dq < (thr : ℝ) ∧
        ∀ p ∈ profiles, ∀ dp, p.faceDescriptor = some dp → t.length ≤ dp.length →
          euclideanDistance t dq ≤ euclideanDistance t dp := by
  constructor
  · unfold findMatchingFaceDirectly
    rw [directLoop_none_iff t thr profiles none 0]
    constructor
    · rintro ⟨-, h2⟩
      intro p hp dp hdp hlp
      rw [← sqrtLtQ_sumSqRef_iff]
      exact h2 p hp dp hdp (sumSqRef t dp) (jsSumSq_of_le t dp hlp)
    · intro h2
      refine ⟨rfl, ?_⟩
      intro p hp dp hdp e he
      rcases jsSumSq_some t dp e he with ⟨rfl, hlen⟩
      rw [sqrtLtQ_sumSqRef_iff]
      exact h2 p hp dp hdp hlen
  · intro q d h
    rcases C1_amended_direct_minimal t profiles thr q d h with ⟨hmem, dq, hdq, hlen, hd, hmin⟩
    refine ⟨dq, hdq, by rw [hd]; rfl, ?_, hmin⟩
    rcases directLoop_some_src t thr profiles none 0 q d h with h1 | ⟨-, dq', hdq', hsum', hlt'⟩
    · exact absurd h1 (by simp)
    have hdd : dq' = dq := Option.some_injective _ (hdq'.symm.trans hdq)
    subst hdd
    rcases jsSumSq_some t dq' d hsum' with ⟨hd2, -⟩
    rw [← sqrtLtQ_sumSqRef_iff, ← hd2]
    exact hlt'

theorem C2_witness :
    ((findMatchingFaceDirectly [0] [(⟨1, some [0]⟩ : Profile)] 1).1 = some (⟨1, some [0]⟩, 0)) ∧
      ∃ dq, (⟨1, some [0]⟩ : Profile).faceDescriptor = some dq ∧
        Real.sqrt (((0 : ℚ) : ℚ) : ℝ) = euclideanDistance [0] dq ∧
        euclideanDistance [0] dq < ((1 : ℚ) : ℝ) ∧
        ∀ p ∈ [(⟨1, some [0]⟩ : Profile)], ∀ dp, p.faceDescriptor = some dp →
          ([0] : Desc).length ≤ dp.length →
          euclideanDistance [0] dq ≤ euclideanDistance [0] dp :=
  ⟨by simp [findMatchingFaceDirectly, directLoop, jsSumSq, sumSqRef, sumSqFrom, sumSqGo,
      sqTerm, sqrtLtQ, ltBest],
   (C2_amended_strict_match [0] [⟨1, some [0]⟩] 1).2 ⟨1, some [0]⟩ 0
    (by simp [findMatchingFaceDirectly, directLoop, jsSumSq, sumSqRef, sumSqFrom, sumSqGo,
      sqTerm, sqrtLtQ, ltBest])⟩

/-- C8 counterexample: a candidate whose descriptor is malformed — longer
than the query descriptor, a dimension mismatch — is not skipped:
`findMatchingFaceDirectly` compares the first query-length components and
returns that candidate as the match. -/
theorem C8_counterexample :
    (findMatchingFaceDirectly [0] [(⟨1, some [0, 5]⟩ : Profile)] (3/5)).1
      = some (⟨1, some [0, 5]⟩, 0) := by
  norm_num [findMatchingFaceDirectly, directLoop, jsSumSq, sumSqRef, sumSqFrom, sumSqGo,
    sqTerm, sqrtLtQ, ltBest]

/-- C8 amended: a candidate with a missing (null/undefined) descriptor is
skipped silently — removing it from anywhere in the candidate list does
not change the result (count included), and it is never returned; a
candidate whose descriptor is shorter than the query yields a NaN distance
and is also never returned.  A candidate with a longer descriptor,
however, participates in the scan and can be returned
(`C8_counterexample`). -/
theorem C8_amended_skip_missing (t : Desc) (thr : ℚ) (l1 l2 : List Profile) (i : ℕ) :
    findMatchingFaceDirectly t (l1 ++ ⟨i, none⟩ :: l2) thr
        = findMatchingFaceDirectly t (l1 ++ l2) thr ∧
      ∀ q d, (findMatchingFaceDirectly t (l1 ++ l2) thr).1 = some (q, d) →
        ∃ dq, q.faceDescriptor = some dq ∧ t.length ≤ dq.length := by
  constructor
  · exact directLoop_skip_invariant t thr l1 l2 none 0 i
  · intro q d h
    rcases C1_amended_direct_minimal t (l1 ++ l2) thr q d h with ⟨-, dq, hdq, hlen, -⟩
    exact ⟨dq, hdq, hlen⟩

theorem dbExtractBody_no_throw (o : Oracle) (bytes : List ℕ) (st : DbState) (e : ℕ) :
    (dbExtractBody o bytes st).1 ≠ .threw e := by
  unfold dbExtractBody
  cases hk : mapLookup (hashBuffer bytes) st.cache with
  | some d => simp [hk]
  | none =>
    repeat' split
    all_goals simp [hk]

theorem srvExtractBody_no_throw (o : Oracle) (key : List ℕ) (st : SrvState) (e : ℕ) :
    (srvExtractBody o key st).1 ≠ .threw e := by
  unfold srvExtractBody
  repeat' split
  all_goals simp

/-- C10: assuming the model load succeeds, descriptor extraction is total
over arbitrary input byte buffers and module states: every internal
failure of the processing path (decode error, no face detected, failed
descriptor computation, any thrown exception) is caught and mapped to the
null result, and the promise never rejects.  (`db.js` maps even load
failures to null, see C3.) -/
theorem C10_extract_total (o : Oracle) (bytes : List ℕ) (now : ℕ)
    (dst : DbState) (sst : SrvState) (h : o.loadErr = none) :
    (∀ e, (dbExtract o bytes now dst).1 ≠ .threw e) ∧
    (∀ e, (srvExtract o bytes sst).1 ≠ .threw e) := by
  constructor
  · intro e
    unfold dbExtract
    cases hlc : (dbLoadModels now dst.loader).1 with
    | resolved =>
      simp only [hlc]
      exact dbExtractBody_no_throw o bytes _ e
    | joined p =>
      simp only [hlc, h]
      exact dbExtractBody_no_throw o bytes _ e
    | started p =>
      simp only [hlc, h]
      exact dbExtractBody_no_throw o bytes _ e
  · intro e
    unfold srvExtract
    cases hk : mapLookup (srvKey bytes) sst.cache with
    | some d => simp only [hk]; simp
    | none =>
      simp only [hk]
      cases hlc : (srvLoadModels sst.loader).1 with
      | resolved =>
        simp only [hlc]
        exact srvExtractBody_no_throw o _ _ e
      | joined p =>
        simp only [hlc, h]
        exact srvExtractBody_no_throw o _ _ e
      | started p =>
        simp only [hlc, h]
        exact srvExtractBody_no_throw o _ _ e

theorem C10_witness :
    (⟨none, false, false, none⟩ : Oracle).loadErr = none ∧
      ((∀ e, (dbExtract ⟨none, false, false, none⟩ [3] 0 ⟨dbLoaderInit, [], [], 0⟩).1 ≠ .threw e) ∧
       (∀ e, (srvExtract ⟨none, false, false, none⟩ [3] ⟨⟨false, none, 0⟩, [], 0⟩).1 ≠ .threw e)) :=
  ⟨rfl, C10_extract_total ⟨none, false, false, none⟩ [3] 0 ⟨dbLoaderInit, [], [], 0⟩
    ⟨⟨false, none, 0⟩, [], 0⟩ rfl⟩

/-- C3 counterexample: in `src/utils/db.js` the `loadModels()` await sits
inside the `try` of `extractFaceDescriptor` (lines 262–266), whose
`catch` returns `null` (lines 351–355): when the model load fails, the
function returns the null/no-face result instead of propagating the load
failure as a distinct outcome. -/
theorem C3_counterexample :
    (dbExtract ⟨some 7, true, true, some []⟩ [0] 0 ⟨dbLoaderInit, [], [], 0⟩).1
      = .noDesc := by decide

/-- C3 amended: the server implementation propagates a model-load failure
as-is (a rejection carrying the load error, distinct from the null
result), while the `db.js` implementation catches it and returns null; in
both, the loader clears its in-progress state — the loading promise is
reset and the loaded flag remains false — so an immediately following
`loadModels` call starts a fresh load. -/
theorem C3_amended_load_failure (o : Oracle) (bytes : List ℕ) (e : ℕ)
    (he : o.loadErr = some e) (sst : SrvState)
    (hl : sst.loader.loadingId = none) (hm : sst.loader.modelsLoaded = false)
    (hc : mapLookup (srvKey bytes) sst.cache = none)
    (dst : DbState) (now : ℕ)
    (hdl : dst.loader.loadingId = none) (hdm : dst.loader.modelsLoaded = false) :
    (srvExtract o bytes sst).1 = .threw e ∧
    (srvExtract o bytes sst).2.loader.loadingId = none ∧
    (srvExtract o bytes sst).2.loader.modelsLoaded = false ∧
    (srvLoadModels (srvExtract o bytes sst).2.loader).1
        = .started (srvExtract o bytes sst).2.loader.loadsStarted ∧
    (dbExtract o bytes now dst).1 = .noDesc ∧
    (dbExtract o bytes now dst).2.loader.loadingId = none ∧
    (dbExtract o bytes now dst).2.loader.modelsLoaded = false := by
  have hsl : srvLoadModels sst.loader =
      (.started sst.loader.loadsStarted,
        { sst.loader with loadingId := some sst.loader.loadsStarted,
                          loadsStarted := sst.loader.loadsStarted + 1 }) := by
    unfold srvLoadModels
    rw [hl, if_neg (by simp [hm])]
  have hsrv : srvExtract o bytes sst =
      (.threw e, { sst with loader :=
        { sst.loader with loadingId := none,
                          loadsStarted := sst.loader.loadsStarted + 1 } }) := by
    unfold srvExtract
    simp only [hc, hsl, he]
    rfl
  have hdbl : dbLoadModels now dst.loader =
      (.started dst.loader.loadsStarted,
        { dst.loader with loadingId := some dst.loader.loadsStarted,
                          loadsStarted := dst.loader.loadsStarted + 1, clock := now }) := by
    unfold dbLoadModels
    rw [if_neg (by simp [hdm]), hdl]
  have hdb : dbExtract o bytes now dst =
      (.noDesc, { dst with loader :=
        { dst.loader with loadingId := none,
                          loadsStarted := dst.loader.loadsStarted + 1, clock := now } }) := by
    unfold dbExtract
    simp only [hdbl, he]
    rfl
  rw [hsrv, hdb]
  refine ⟨rfl, rfl, by simpa using hm, ?_, rfl, rfl, by simpa using hdm⟩
  unfold srvLoadModels
  rw [if_neg (by simp [hm])]

theorem C3_witness :
    (⟨some 7, true, true, some []⟩ : Oracle).loadErr = some 7 ∧
      (srvExtract ⟨some 7, true, true, some []⟩ [0] ⟨⟨false, none, 0⟩, [], 0⟩).1 = .threw 7 ∧
      (srvExtract ⟨some 7, true, true, some []⟩ [0] ⟨⟨false, none, 0⟩, [], 0⟩).2.loader.loadingId
        = none ∧
      (dbExtract ⟨some 7, true, true, some []⟩ [0] 0 ⟨dbLoaderInit, [], [], 0⟩).1 = .noDesc :=
  ⟨rfl,
   (C3_amended_load_failure ⟨some 7, true, true, some []⟩ [0] 7 rfl
      ⟨⟨false, none, 0⟩, [], 0⟩ rfl rfl rfl ⟨dbLoaderInit, [], [], 0⟩ 0 rfl rfl).1,
   (C3_amended_load_failure ⟨some 7, true, true, some []⟩ [0] 7 rfl
      ⟨⟨false, none, 0⟩, [], 0⟩ rfl rfl rfl ⟨dbLoaderInit, [], [], 0⟩ 0 rfl rfl).2.1,
   (C3_amended_load_failure ⟨some 7, true, true, some []⟩ [0] 7 rfl
      ⟨⟨false, none, 0⟩, [], 0⟩ rfl rfl rfl ⟨dbLoaderInit, [], [], 0⟩ 0 rfl rfl).2.2.2.2.1⟩

theorem mapLookup_cons_none {κ : Type} [DecidableEq κ] (k : κ) (e : κ × Desc)
    (rest : List (κ × Desc)) (h : mapLookup k (e :: rest) = none) : k ≠ e.1 := by
  intro hk
  rcases e with ⟨k', v'⟩
  unfold mapLookup at h
  rw [if_pos hk] at h
  exact absurd h (by simp)

/-- After inserting a fresh key and possibly deleting the first (distinct)
entry, the key is found with its value. -/
theorem lookup_after_fifo_insert {κ : Type} [DecidableEq κ] (key : κ) (d : Desc)
    (cache : List (κ × Desc)) (hk : mapLookup key cache = none) :
    mapLookup key (fifoInsert key d cache) = some d := by
  unfold fifoInsert
  have hset : mapSet key d cache = cache ++ [(key, d)] := mapSet_absent key d cache hk
  have hfind : mapLookup key (mapSet key d cache) = some d := by
    rw [hset, mapLookup_append_right key cache _ hk]
    unfold mapLookup
    rw [if_pos rfl]
  by_cases hlen : 100 < (mapSet key d cache).length
  · rw [if_pos hlen]
    cases hc : cache with
    | nil =>
      rw [hc] at hlen
      simp [mapSet] at hlen
    | cons e0 rest =>
      have hne : key ≠ e0.1 := mapLookup_cons_none key e0 rest (by rw [← hc]; exact hk)
      have hhead : mapSet key d cache = e0 :: (rest ++ [(key, d)]) := by
        rw [hset, hc]
        rfl
      rw [← hc, hhead]
      show mapLookup key (mapDelete e0.1 (e0 :: (rest ++ [(key, d)]))) = some d
      rw [mapLookup_delete_ne key e0.1 _ hne, ← hhead]
      exact hfind
  · rw [if_neg hlen]
    exact hfind

theorem srvExtractBody_ok_cases (o : Oracle) (key : List ℕ) (st : SrvState) (d : Desc)
    (h : (srvExtractBody o key st).1 = .ok d) :
    o.decodeOk = true ∧ o.det1 = true ∧ o.det2 = some d := by
  unfold srvExtractBody at h
  by_cases h1 : o.decodeOk = false
  · rw [if_pos h1] at h; exact absurd h (by simp)
  · rw [if_neg h1] at h
    by_cases h2 : o.det1 = false
    · rw [if_pos h2] at h
      exact absurd h (by simp)
    · rw [if_neg h2] at h
      cases h3 : o.det2 with
      | none => simp only [h3] at h; exact absurd h (by simp)
      | some d0 =>
        simp only [h3] at h
        have : d0 = d := by simpa using h
        exact ⟨by simpa using h1, by simpa using h2, by rw [this]⟩

theorem srvExtractBody_eq (o : Oracle) (key : List ℕ) (st : SrvState) (d : Desc)
    (hdec : o.decodeOk = true) (hdet : o.det1 = true) (hd : o.det2 = some d) :
    srvExtractBody o key st =
      (.ok d,
        { st with pipelineCount := st.pipelineCount + 1 + 1,
                  cache := fifoInsert key d st.cache }) := by
  unfold srvExtractBody
  rw [if_neg (by simp [hdec]), if_neg (by simp [hdet])]
  simp only [hd]

theorem srvExtract_hit (o : Oracle) (bytes : List ℕ) (st : SrvState) (d : Desc)
    (hk : mapLookup (srvKey bytes) st.cache = some d) :
    srvExtract o bytes st = (.ok d, st) := by
  unfold srvExtract
  simp only [hk]

/-- A successful server extraction leaves the descriptor retrievable under
the content key of its bytes. -/
theorem srvExtract_ok_lookup (o : Oracle) (bytes : List ℕ) (st : SrvState) (d : Desc)
    (h : (srvExtract o bytes st).1 = .ok d) :
    mapLookup (srvKey bytes) (srvExtract o bytes st).2.cache = some d := by
  cases hk : mapLookup (srvKey bytes) st.cache with
  | some d0 =>
    have hext := srvExtract_hit o bytes st d0 hk
    rw [hext] at h ⊢
    have : d0 = d := by simpa using h
    rw [← this]
    exact hk
  | none =>
    unfold srvExtract at h ⊢
    simp only [hk] at h ⊢
    cases hlc : (srvLoadModels st.loader).1 with
    | resolved =>
      simp only [hlc] at h ⊢
      rcases srvExtractBody_ok_cases o (srvKey bytes) _ d h with ⟨h1, h2, h3⟩
      rw [srvExtractBody_eq o (srvKey bytes) _ d h1 h2 h3]
      simpa using lookup_after_fifo_insert (srvKey bytes) d st.cache hk
    | joined p =>
      simp only [hlc] at h ⊢
      cases hle : o.loadErr with
      | some e => simp only [hle] at h; exact absurd h (by simp)
      | none =>
        simp only [hle] at h ⊢
        rcases srvExtractBody_ok_cases o (srvKey bytes) _ d h with ⟨h1, h2, h3⟩
        rw [srvExtractBody_eq o (srvKey bytes) _ d h1 h2 h3]
        simpa using lookup_after_fifo_insert (srvKey bytes) d st.cache hk
    | started p =>
      simp only [hlc] at h ⊢
      cases hle : o.loadErr with
      | some e => simp only [hle] at h; exact absurd h (by simp)
      | none =>
        simp only [hle] at h ⊢
        rcases srvExtractBody_ok_cases o (srvKey bytes) _ d h with ⟨h1, h2, h3⟩
        rw [srvExtractBody_eq o (srvKey bytes) _ d h1 h2 h3]
        simpa using lookup_after_fifo_insert (srvKey bytes) d st.cache hk

theorem dbExtractBody_hit (o : Oracle) (bytes : List ℕ) (st : DbState) (d : Desc)
    (hk : mapLookup (hashBuffer bytes) st.cache = some d) :
    dbExtractBody o bytes st
      = (.ok d, { st with accessOrder := updateCacheAccess (hashBuffer bytes) st.accessOrder }) := by
  unfold dbExtractBody
  simp only [hk]

theorem lookup_after_set {κ : Type} [DecidableEq κ] (key : κ) (d : Desc)
    (cache : List (κ × Desc)) (hk : mapLookup key cache = none) :
    mapLookup key (mapSet key d cache) = some d := by
  rw [mapSet_absent key d cache hk, mapLookup_append_right key cache _ hk]
  unfold mapLookup
  rw [if_pos rfl]

theorem dbExtractBody_ok_cases (o : Oracle) (bytes : List ℕ) (st : DbState) (d : Desc)
    (hk : mapLookup (hashBuffer bytes) st.cache = none)
    (h : (dbExtractBody o bytes st).1 = .ok d) :
    o.decodeOk = true ∧ o.det1 = true ∧ o.det2 = some d := by
  unfold dbExtractBody at h
  simp only [hk] at h
  by_cases h1 : o.decodeOk = false
  · rw [if_pos h1] at h; exact absurd h (by simp)
  · rw [if_neg h1] at h
    by_cases h2 : o.det1 = false
    · rw [if_pos h2] at h; exact absurd h (by simp)
    · rw [if_neg h2] at h
      cases h3 : o.det2 with
      | none => simp only [h3] at h; exact absurd h (by simp)
      | some d0 =>
        simp only [h3] at h
        have : d0 = d := by simpa using h
        exact ⟨by simpa using h1, by simpa using h2, by rw [this]⟩

theorem dbExtractBody_eq (o : Oracle) (bytes : List ℕ) (st : DbState) (d : Desc)
    (hk : mapLookup (hashBuffer bytes) st.cache = none)
    (hdec : o.decodeOk = true) (hdet : o.det1 = true) (hd : o.det2 = some d) :
    dbExtractBody o bytes st =
      (.ok d,
        { loader := st.loader,
          cache := mapSet (hashBuffer bytes) d
            (if CACHE_SIZE_LIMIT ≤ st.cache.length then
              match st.accessOrder with
              | [] => st.cache
              | k0 :: _ => mapDelete k0 st.cache
            else st.cache),
          accessOrder := updateCacheAccess (hashBuffer bytes)
            (if CACHE_SIZE_LIMIT ≤ st.cache.length then
              match st.accessOrder with
              | [] => st.accessOrder
              | _ :: rest => rest
            else st.accessOrder),
          pipelineCount := st.pipelineCount + 1 + 1 }) := by
  unfold dbExtractBody
  simp only [hk]
  rw [if_neg (by simp [hdec]), if_neg (by simp [hdet])]
  simp only [hd]
  by_cases hlen : CACHE_SIZE_LIMIT ≤ st.cache.length
  · simp only [if_pos hlen]
    cases st.accessOrder <;> rfl
  · simp only [if_neg hlen]

theorem dbExtractBody_ok_lookup (o : Oracle) (bytes : List ℕ) (st : DbState) (d : Desc)
    (h : (dbExtractBody o bytes st).1 = .ok d) :
    mapLookup (hashBuffer bytes) (dbExtractBody o bytes st).2.cache = some d := by
  cases hk : mapLookup (hashBuffer bytes) st.cache with
  | some d0 =>
    rw [dbExtractBody_hit o bytes st d0 hk] at h ⊢
    have : d0 = d := by simpa using h
    rw [← this]
    exact hk
  | none =>
    rcases dbExtractBody_ok_cases o bytes st d hk h with ⟨h1, h2, h3⟩
    rw [dbExtractBody_eq o bytes st d hk h1 h2 h3]
    by_cases hlen : CACHE_SIZE_LIMIT ≤ st.cache.length
    · simp only [if_pos hlen]
      cases horder : st.accessOrder with
      | nil => exact lookup_after_set (hashBuffer bytes) d st.cache hk
      | cons k0 rest =>
        exact lookup_after_set (hashBuffer bytes) d _
          (mapLookup_delete_none (hashBuffer bytes) k0 st.cache hk)
    · simp only [if_neg hlen]
      exact lookup_after_set (hashBuffer bytes) d st.cache hk

theorem dbExtractBody_loader (o : Oracle) (bytes : List ℕ) (st : DbState) :
    (dbExtractBody o bytes st).2.loader = st.loader := by
  cases hk : mapLookup (hashBuffer bytes) st.cache with
  | some d => rw [dbExtractBody_hit o bytes st d hk]
  | none =>
    unfold dbExtractBody
    simp only [hk]
    repeat' split
    all_goals rfl

theorem dbLoadModels_fresh_resolved (now : ℕ) (st : DbLoader)
    (h1 : st.modelsLoaded = true) (h2 : now - st.lastModelLoadTime < MODEL_VALIDITY_DURATION) :
    dbLoadModels now st = (.resolved, { st with clock := now }) := by
  unfold dbLoadModels
  rw [if_pos ⟨h1, h2⟩]

theorem dbLoadModels_resolved_fresh (now : ℕ) (st : DbLoader)
    (h : (dbLoadModels now st).1 = .resolved) :
    (dbLoadModels now st).2.modelsLoaded = true ∧
      now - (dbLoadModels now st).2.lastModelLoadTime < MODEL_VALIDITY_DURATION := by
  unfold dbLoadModels at h ⊢
  by_cases hc : st.modelsLoaded = true ∧ now - st.lastModelLoadTime < MODEL_VALIDITY_DURATION
  · rw [if_pos hc]
    exact hc
  · rw [if_neg hc] at h
    cases hid : st.loadingId with
    | some p => simp only [hid] at h; exact absurd h (by simp)
    | none => simp only [hid] at h; exact absurd h (by simp)

/-- A successful `db.js` extraction leaves the models loaded and fresh for
its instant, and the descriptor retrievable under the content hash. -/
theorem dbExtract_ok_state (o : Oracle) (bytes : List ℕ) (now : ℕ) (st : DbState) (d : Desc)
    (h : (dbExtract o bytes now st).1 = .ok d) :
    mapLookup (hashBuffer bytes) (dbExtract o bytes now st).2.cache = some d ∧
    (dbExtract o bytes now st).2.loader.modelsLoaded = true ∧
    now - (dbExtract o bytes now st).2.loader.lastModelLoadTime < MODEL_VALIDITY_DURATION := by
  unfold dbExtract at h ⊢
  cases hlc : (dbLoadModels now st.loader).1 with
  | resolved =>
    simp only [hlc] at h ⊢
    refine ⟨dbExtractBody_ok_lookup o bytes _ d h, ?_⟩
    rw [dbExtractBody_loader o bytes _]
    exact dbLoadModels_resolved_fresh now st.loader hlc
  | joined p =>
    simp only [hlc] at h ⊢
    cases hle : o.loadErr with
    | some e => simp only [hle] at h; exact absurd h (by simp)
    | none =>
      simp only [hle] at h ⊢
      refine ⟨dbExtractBody_ok_lookup o bytes _ d h, ?_⟩
      rw [dbExtractBody_loader o bytes _]
      refine ⟨rfl, ?_⟩
      show now - now < MODEL_VALIDITY_DURATION
      unfold MODEL_VALIDITY_DURATION
      omega
  | started p =>
    simp only [hlc] at h ⊢
    cases hle : o.loadErr with
    | some e => simp only [hle] at h; exact absurd h (by simp)
    | none =>
      simp only [hle] at h ⊢
      refine ⟨dbExtractBody_ok_lookup o bytes _ d h, ?_⟩
      rw [dbExtractBody_loader o bytes _]
      refine ⟨rfl, ?_⟩
      show now - now < MODEL_VALIDITY_DURATION
      unfold MODEL_VALIDITY_DURATION
      omega

theorem mapLookup_some_mem {κ : Type} [DecidableEq κ] (k : κ) (m : List (κ × Desc)) (d : Desc)
    (h : mapLookup k m = some d) : k ∈ m.map Prod.fst := by
  induction m with
  | nil => exact absurd h (by simp [mapLookup])
  | cons e rest ih =>
    rcases e with ⟨k', v'⟩
    unfold mapLookup at h
    by_cases hk : k = k'
    · simp [hk]
    · rw [if_neg hk] at h
      rw [List.map_cons]
      exact List.mem_cons_of_mem k' (ih h)

theorem mapLookup_none_not_mem {κ : Type} [DecidableEq κ] (k : κ) (m : List (κ × Desc))
    (h : mapLookup k m = none) : k ∉ m.map Prod.fst := by
  induction m with
  | nil => simp
  | cons e rest ih =>
    rcases e with ⟨k', v'⟩
    unfold mapLookup at h
    by_cases hk : k = k'
    · rw [if_pos hk] at h; exact absurd h (by simp)
    · rw [if_neg hk] at h
      intro hmem
      rw [List.map_cons] at hmem
      rcases List.mem_cons.mp hmem with h1 | h1
      · exact hk h1
      · exact ih h h1

theorem mapDelete_map_fst {κ : Type} [DecidableEq κ] (k : κ) (m : List (κ × Desc)) :
    (mapDelete k m).map Prod.fst = (m.map Prod.fst).filter (fun x => x != k) := by
  induction m with
  | nil => rfl
  | cons e rest ih =>
    rcases e with ⟨k', v'⟩
    unfold mapDelete at ih ⊢
    rw [List.filter_cons, List.map_cons, List.filter_cons]
    by_cases hk : k' = k
    · rw [show (decide ((k', v').1 ≠ k)) = false by simp [hk],
        show ((k' : κ) != k) = false by simp [hk]]
      simpa using ih
    · rw [show (decide ((k', v').1 ≠ k)) = true by simp [hk],
        show ((k' : κ) != k) = true by simp [hk]]
      simp only [if_true, List.map_cons]
      rw [ih]

/-- Cache-consistency invariant of the `db.js` module state: the cache
keys are distinct (a `Map` property), the LRU access order is a
permutation of the key set, and the size is within `CACHE_SIZE_LIMIT`. -/
def dbCacheInv (st : DbState) : Prop :=
  (st.cache.map Prod.fst).Nodup ∧
  st.accessOrder.Perm (st.cache.map Prod.fst) ∧
  st.cache.length ≤ CACHE_SIZE_LIMIT

theorem updateCacheAccess_perm (k : ℕ) (order : List ℕ) (h : k ∈ order) :
    (updateCacheAccess k order).Perm order := by
  unfold updateCacheAccess
  exact (List.perm_append_singleton k (order.erase k)).trans (List.perm_cons_erase h).symm

theorem dbExtractBody_cacheInv (o : Oracle) (bytes : List ℕ) (st : DbState)
    (h : dbCacheInv st) : dbCacheInv (dbExtractBody o bytes st).2 := by
  rcases h with ⟨hnd, hperm, hlen⟩
  cases hk : mapLookup (hashBuffer bytes) st.cache with
  | some d =>
    rw [dbExtractBody_hit o bytes st d hk]
    refine ⟨hnd, ?_, hlen⟩
    have hmem : hashBuffer bytes ∈ st.cache.map Prod.fst :=
      mapLookup_some_mem (hashBuffer bytes) st.cache d hk
    have hmemo : hashBuffer bytes ∈ st.accessOrder := hperm.mem_iff.mpr hmem
    exact (updateCacheAccess_perm (hashBuffer bytes) st.accessOrder hmemo).trans hperm
  | none =>
    by_cases h1 : o.decodeOk = false
    · unfold dbExtractBody
      simp only [hk]
      rw [if_pos h1]
      exact ⟨hnd, hperm, hlen⟩
    · by_cases h2 : o.det1 = false
      · unfold dbExtractBody
        simp only [hk]
        rw [if_neg h1, if_pos h2]
        exact ⟨hnd, hperm, hlen⟩
      · cases h3 : o.det2 with
        | none =>
          unfold dbExtractBody
          simp only [hk]
          rw [if_neg h1, if_neg h2]
          simp only [h3]
          exact ⟨hnd, hperm, hlen⟩
        | some d =>
          rw [dbExtractBody_eq o bytes st d hk (by simpa using h1) (by simpa using h2) h3]
          have hknot : hashBuffer bytes ∉ st.cache.map Prod.fst :=
            mapLookup_none_not_mem (hashBuffer bytes) st.cache hk
          have hkorder : hashBuffer bytes ∉ st.accessOrder := fun hin =>
            hknot (hperm.mem_iff.mp hin)
          by_cases hlenge : CACHE_SIZE_LIMIT ≤ st.cache.length
          · simp only [if_pos hlenge]
            cases horder : st.accessOrder with
            | nil =>
              exfalso
              have hle := hperm.length_eq
              rw [horder] at hle
              simp at hle
              have h100 : 100 ≤ st.cache.length := hlenge
              omega
            | cons k0 rest =>
              have hk0 : k0 ∈ st.accessOrder := by rw [horder]; exact List.mem_cons_self k0 rest
              have hk0keys : k0 ∈ st.cache.map Prod.fst := hperm.mem_iff.mp hk0
              have hkne : hashBuffer bytes ≠ k0 := fun hc => hkorder (hc ▸ hk0)
              -- keys after deletion
              have hkeysdel : (mapDelete k0 st.cache).map Prod.fst
                  = (st.cache.map Prod.fst).erase k0 := by
                rw [mapDelete_map_fst, hnd.erase_eq_filter k0]
              have hnd' : ((mapDelete k0 st.cache).map Prod.fst).Nodup := by
                rw [hkeysdel]
                exact hnd.erase k0
              have hrest : rest.Perm ((mapDelete k0 st.cache).map Prod.fst) := by
                rw [hkeysdel]
                have := List.cons_perm_iff_perm_erase.mp (horder ▸ hperm)
                exact this.2
              have hkdel : hashBuffer bytes ∉ (mapDelete k0 st.cache).map Prod.fst := by
                rw [hkeysdel]
                intro hc
                exact hknot (List.mem_of_mem_erase hc)
              have hsetdel : mapSet (hashBuffer bytes) d (mapDelete k0 st.cache)
                  = mapDelete k0 st.cache ++ [(hashBuffer bytes, d)] :=
                mapSet_absent _ d _ (mapLookup_delete_none (hashBuffer bytes) k0 st.cache hk)
              refine ⟨?_, ?_, ?_⟩
              · rw [hsetdel, List.map_append]
                rw [List.nodup_append]
                refine ⟨hnd', by simp, ?_⟩
                intro x hx
                simp only [List.map_cons, List.map_nil, List.mem_singleton]
                intro hc
                rw [hc] at hx
                exact hkdel hx
              · rw [hsetdel, List.map_append]
                unfold updateCacheAccess
                rw [List.erase_of_not_mem (by
                  intro hc
                  exact hkorder (by rw [horder]; exact List.mem_cons_of_mem k0 hc))]
                exact hrest.append_right _
              · rw [hsetdel, List.length_append]
                have hdel : ((mapDelete k0 st.cache).map Prod.fst).length
                    = (st.cache.map Prod.fst).length - 1 := by
                  rw [hkeysdel]
                  exact List.length_erase_of_mem hk0keys
                rw [List.length_map, List.length_map] at hdel
                have h100 : st.cache.length ≤ 100 := hlen
                have hge : 100 ≤ st.cache.length := hlenge
                show (mapDelete k0 st.cache).length + 1 ≤ 100
                omega
          · simp only [if_neg hlenge]
            have hset : mapSet (hashBuffer bytes) d st.cache
                = st.cache ++ [(hashBuffer bytes, d)] :=
              mapSet_absent _ d _ hk
            refine ⟨?_, ?_, ?_⟩
            · rw [hset, List.map_append, List.nodup_append]
              refine ⟨hnd, by simp, ?_⟩
              intro x hx
              simp only [List.map_cons, List.map_nil, List.mem_singleton]
              intro hc
              rw [hc] at hx
              exact hknot hx
            · rw [hset, List.map_append]
              unfold updateCacheAccess
              rw [List.erase_of_not_mem hkorder]
              exact hperm.append_right _
            · rw [hset, List.length_append]
              have h100 : ¬ (100 ≤ st.cache.length) := hlenge
              show st.cache.length + 1 ≤ 100
              omega

theorem dbExtract_cacheInv (o : Oracle) (bytes : List ℕ) (now : ℕ) (st : DbState)
    (h : dbCacheInv st) : dbCacheInv (dbExtract o bytes now st).2 := by
  unfold dbExtract
  cases hlc : (dbLoadModels now st.loader).1 with
  | resolved =>
    simp only [hlc]
    exact dbExtractBody_cacheInv o bytes _ h
  | joined p =>
    simp only [hlc]
    cases o.loadErr with
    | some e => exact h
    | none => exact dbExtractBody_cacheInv o bytes _ h
  | started p =>
    simp only [hlc]
    cases o.loadErr with
    | some e => exact h
    | none => exact dbExtractBody_cacheInv o bytes _ h

theorem fifoInsert_length (key : List ℕ) (d : Desc) (cache : List (List ℕ × Desc))
    (hk : mapLookup key cache = none) (h : cache.length ≤ 100) :
    (fifoInsert key d cache).length ≤ 100 := by
  unfold fifoInsert
  have hset : mapSet key d cache = cache ++ [(key, d)] := mapSet_absent key d cache hk
  by_cases hlen : 100 < (mapSet key d cache).length
  · rw [if_pos hlen]
    cases hm : mapSet key d cache with
    | nil => simp
    | cons e tail =>
      have hlt := mapDelete_cons_self_length e.1 e.2 tail
      have hlen2 : (mapSet key d cache).length = cache.length + 1 := by
        rw [hset, List.length_append]
        simp
      rw [hm] at hlen2
      simp only [List.length_cons] at hlen2
      calc (mapDelete e.1 (e :: tail)).length ≤ tail.length := by
            simpa using mapDelete_cons_self_length e.1 e.2 tail
        _ ≤ 100 := by omega
  · rw [if_neg hlen]
    omega

theorem srvExtractBody_length (o : Oracle) (key : List ℕ) (st : SrvState)
    (hk : mapLookup key st.cache = none) (h : st.cache.length ≤ 100) :
    (srvExtractBody o key st).2.cache.length ≤ 100 := by
  unfold srvExtractBody
  by_cases h1 : o.decodeOk = false
  · rw [if_pos h1]; exact h
  · rw [if_neg h1]
    by_cases h2 : o.det1 = false
    · rw [if_pos h2]; exact h
    · rw [if_neg h2]
      cases h3 : o.det2 with
      | none => exact h
      | some d => exact fifoInsert_length key d st.cache hk h

theorem srvExtract_length (o : Oracle) (bytes : List ℕ) (st : SrvState)
    (h : st.cache.length ≤ 100) : (srvExtract o bytes st).2.cache.length ≤ 100 := by
  unfold srvExtract
  cases hk : mapLookup (srvKey bytes) st.cache with
  | some d => simp only [hk]; exact h
  | none =>
    simp only [hk]
    cases hlc : (srvLoadModels st.loader).1 with
    | resolved => exact srvExtractBody_length o _ _ hk h
    | joined p =>
      cases o.loadErr with
      | some e => exact h
      | none => exact srvExtractBody_length o _ _ hk h
    | started p =>
      cases o.loadErr with
      | some e => exact h
      | none => exact srvExtractBody_length o _ _ hk h

/-- An oracle whose pipeline always succeeds with the empty descriptor;
used to drive the concrete cache scenarios. -/
def probeOracle : Oracle := ⟨none, true, true, some []⟩

/-- Server cache state after extracting 100 distinct one-byte images. -/
def fifoAfter100 : SrvState :=
  ((List.range 100).map (fun i => [i])).foldl
    (fun s b => (srvExtract probeOracle b s).2) ⟨⟨false, none, 0⟩, [], 0⟩

/-- ... then re-extracting the first image (a cache read). -/
def fifoAfterRead : SrvState := (srvExtract probeOracle [0] fifoAfter100).2

/-- ... then extracting a 101st distinct image, forcing an eviction. -/
def fifoFinal : SrvState := (srvExtract probeOracle [100] fifoAfterRead).2

/-- `db.js` cache state over the same scenario. -/
def lruDbAfter100 : DbState :=
  ((List.range 100).map (fun i => [i])).foldl
    (fun s b => (dbExtract probeOracle b 0 s).2) ⟨dbLoaderInit, [], [], 0⟩

def lruDbAfterRead : DbState := (dbExtract probeOracle [0] 0 lruDbAfter100).2

def lruDbFinal : DbState := (dbExtract probeOracle [100] 0 lruDbAfterRead).2

/-- The cache update of the third variant (`src/unnamed/part_003` lines
224–230): the oldest entry is deleted only when the size already exceeds
50 BEFORE the `set`, so the cache stabilizes at 51 entries. -/
def p3CacheInsert (key : List ℕ) (d : Desc) (cache : List (List ℕ × Desc)) :
    List (List ℕ × Desc) :=
  let c1 :=
    if 50 < cache.length then
      match cache with
      | [] => cache
      | e :: _ => mapDelete e.1 cache
    else cache
  mapSet key d c1

/-- The 50-entry cache after 51 completed extractions with distinct
keys. -/
def p3Cache51 : List (List ℕ × Desc) :=
  ((List.range 51).map (fun i => [i])).foldl (fun m k => p3CacheInsert k [] m) []

set_option maxRecDepth 1000000

/-- C6 counterexample: the server cache (`faceRecognition.js` lines
207–215) evicts the FIRST INSERTED entry, not the least recently read or
written one: after filling the cache with 100 entries and then READING
the first entry again (a cache hit, making it the most recently used),
the next insert evicts precisely that just-read entry and keeps the
entries that were least recently used.  Moreover the 50-entry cache of
the third variant holds 51 entries after 51 completed extractions
(`part_003` checks `size > 50` before the `set`), exceeding its stated
capacity. -/
theorem C6_counterexample :
    (srvExtract probeOracle [0] fifoAfter100).1 = .ok [] ∧
    mapLookup (srvKey [0]) fifoFinal.cache = none ∧
    mapLookup (srvKey [1]) fifoFinal.cache = some [] ∧
    p3Cache51.length = 51 := by decide

/-- C6 amended: the `db.js` descriptor cache preserves its consistency
invariant — distinct keys, access order a permutation of the keys, and at
most `CACHE_SIZE_LIMIT = 100` entries — across every extraction, evicting
in true LRU order (concretely: in the fill–read–insert scenario the
just-read entry survives the eviction and the least recently used entry
is evicted, and the cache stays at 100 entries).  The server cache is
likewise bounded by 100 entries after any extraction completes, but its
eviction is FIFO (first inserted), not LRU (`C6_counterexample`). -/
theorem C6_amended_bounds (o : Oracle) (bytes : List ℕ) (now : ℕ)
    (dst : DbState) (sst : SrvState)
    (hdb : dbCacheInv dst) (hsrv : sst.cache.length ≤ CACHE_SIZE_LIMIT) :
    dbCacheInv (dbExtract o bytes now dst).2 ∧
    (srvExtract o bytes sst).2.cache.length ≤ CACHE_SIZE_LIMIT ∧
    ((dbExtract probeOracle [0] 0 lruDbAfter100).1 = .ok [] ∧
      mapLookup (hashBuffer [0]) lruDbFinal.cache = some [] ∧
      mapLookup (hashBuffer [1]) lruDbFinal.cache = none ∧
      lruDbFinal.cache.length = CACHE_SIZE_LIMIT) := by
  refine ⟨dbExtract_cacheInv o bytes now dst hdb, srvExtract_length o bytes sst hsrv, ?_⟩
  decide

theorem C6_witness :
    (dbCacheInv ⟨dbLoaderInit, [], [], 0⟩ ∧
      (⟨⟨false, none, 0⟩, [], 0⟩ : SrvState).cache.length ≤ CACHE_SIZE_LIMIT) ∧
    (dbCacheInv (dbExtract probeOracle [5] 0 ⟨dbLoaderInit, [], [], 0⟩).2 ∧
      (srvExtract probeOracle [5] ⟨⟨false, none, 0⟩, [], 0⟩).2.cache.length ≤ CACHE_SIZE_LIMIT ∧
      ((dbExtract probeOracle [0] 0 lruDbAfter100).1 = .ok [] ∧
        mapLookup (hashBuffer [0]) lruDbFinal.cache = some [] ∧
        mapLookup (hashBuffer [1]) lruDbFinal.cache = none ∧
        lruDbFinal.cache.length = CACHE_SIZE_LIMIT)) :=
  ⟨⟨⟨List.nodup_nil, List.Perm.refl _, by decide⟩, by decide⟩,
   C6_amended_bounds probeOracle [5] 0 ⟨dbLoaderInit, [], [], 0⟩ ⟨⟨false, none, 0⟩, [], 0⟩
     ⟨List.nodup_nil, List.Perm.refl _, by decide⟩ (by decide)⟩

/-- With loaded, fresh models and the key already cached, a `db.js`
extraction is a pure cache hit: it returns the cached descriptor and only
refreshes the LRU order and the loader clock. -/
theorem dbExtract_fresh_hit (o : Oracle) (bytes : List ℕ) (now : ℕ) (st : DbState) (d : Desc)
    (hml : st.loader.modelsLoaded = true)
    (hfresh : now - st.loader.lastModelLoadTime < MODEL_VALIDITY_DURATION)
    (hlook : mapLookup (hashBuffer bytes) st.cache = some d) :
    dbExtract o bytes now st =
      (.ok d, { st with
        loader := { st.loader with clock := now },
        accessOrder := updateCacheAccess (hashBuffer bytes) st.accessOrder }) := by
  unfold dbExtract
  rw [dbLoadModels_fresh_resolved now st.loader hml hfresh]
  show dbExtractBody o bytes { st with loader := { st.loader with clock := now } } = _
  rw [dbExtractBody_hit o bytes { st with loader := { st.loader with clock := now } } d hlook]

/-- C5: extraction is memoized by a deterministic content key of the
bytes: when a call returns a descriptor, an immediately following call on
byte-identical input returns the byte-identical descriptor from the cache,
re-invoking no part of the detection/landmark/embedding pipeline (the
pipeline invocation counter is unchanged), in both implementations. -/
theorem C5_cache_idempotent (o : Oracle) (bytes : List ℕ) (now : ℕ)
    (dst : DbState) (sst : SrvState) (d d' : Desc)
    (h1 : (dbExtract o bytes now dst).1 = .ok d)
    (h2 : (srvExtract o bytes sst).1 = .ok d') :
    (dbExtract o bytes now (dbExtract o bytes now dst).2).1 = .ok d ∧
    (dbExtract o bytes now (dbExtract o bytes now dst).2).2.pipelineCount
        = (dbExtract o bytes now dst).2.pipelineCount ∧
    (srvExtract o bytes (srvExtract o bytes sst).2).1 = .ok d' ∧
    (srvExtract o bytes (srvExtract o bytes sst).2).2.pipelineCount
        = (srvExtract o bytes sst).2.pipelineCount := by
  rcases dbExtract_ok_state o bytes now dst d h1 with ⟨hlook, hml, hfresh⟩
  have hdb2 := dbExtract_fresh_hit o bytes now (dbExtract o bytes now dst).2 d hml hfresh hlook
  have hlook2 := srvExtract_ok_lookup o bytes sst d' h2
  have hsrv2 : srvExtract o bytes (srvExtract o bytes sst).2
      = (.ok d', (srvExtract o bytes sst).2) :=
    srvExtract_hit o bytes _ d' hlook2
  rw [hdb2, hsrv2]
  exact ⟨rfl, rfl, rfl, rfl⟩

theorem C5_witness :
    ((dbExtract ⟨none, true, true, some [7]⟩ [2] 0 ⟨dbLoaderInit, [], [], 0⟩).1 = .ok [7] ∧
      (srvExtract ⟨none, true, true, some [7]⟩ [2] ⟨⟨false, none, 0⟩, [], 0⟩).1 = .ok [7]) ∧
    ((dbExtract ⟨none, true, true, some [7]⟩ [2] 0
        (dbExtract ⟨none, true, true, some [7]⟩ [2] 0 ⟨dbLoaderInit, [], [], 0⟩).2).1
          = .ok [7] ∧
     (dbExtract ⟨none, true, true, some [7]⟩ [2] 0
        (dbExtract ⟨none, true, true, some [7]⟩ [2] 0 ⟨dbLoaderInit, [], [], 0⟩).2).2.pipelineCount
          = (dbExtract ⟨none, true, true, some [7]⟩ [2] 0 ⟨dbLoaderInit, [], [], 0⟩).2.pipelineCount ∧
     (srvExtract ⟨none, true, true, some [7]⟩ [2]
        (srvExtract ⟨none, true, true, some [7]⟩ [2] ⟨⟨false, none, 0⟩, [], 0⟩).2).1 = .ok [7] ∧
     (srvExtract ⟨none, true, true, some [7]⟩ [2]
        (srvExtract ⟨none, true, true, some [7]⟩ [2] ⟨⟨false, none, 0⟩, [], 0⟩).2).2.pipelineCount
          = (srvExtract ⟨none, true, true, some [7]⟩ [2] ⟨⟨false, none, 0⟩, [], 0⟩).2.pipelineCount) :=
  ⟨⟨by simp [dbExtract, dbExtractBody, dbLoadModels, dbLoadSuccess, dbLoaderInit,
      hashBuffer, hashGo, hashStep, mapLookup, mapSet, updateCacheAccess,
      CACHE_SIZE_LIMIT, MODEL_VALIDITY_DURATION, dbLoadFailure],
    by simp [srvExtract, srvExtractBody, srvLoadModels, srvLoadSuccess,
      srvKey, base64, mapLookup, mapSet]⟩,
   C5_cache_idempotent ⟨none, true, true, some [7]⟩ [2] 0 ⟨dbLoaderInit, [], [], 0⟩
     ⟨⟨false, none, 0⟩, [], 0⟩ [7] [7]
     (by simp [dbExtract, dbExtractBody, dbLoadModels, dbLoadSuccess, dbLoaderInit,
       hashBuffer, hashGo, hashStep, mapLookup, mapSet, updateCacheAccess,
       CACHE_SIZE_LIMIT, MODEL_VALIDITY_DURATION, dbLoadFailure])
     (by simp [srvExtract, srvExtractBody, srvLoadModels, srvLoadSuccess,
       srvKey, base64, mapLookup, mapSet])⟩

/-- C4: at most one in-flight model-load operation exists at any time.

Whenever `loadModels` is called while a load is already in progress (the
loading promise is non-null), it returns that same outstanding promise
without initiating a new load — for `db.js` in every reachable state (the
freshness check cannot bypass an in-flight promise there), for the server
version unconditionally (the promise is checked first).  Consequently any
number of same-instant callers arriving with no valid models and no
in-flight load trigger exactly one underlying load operation (the
load-invocation counter increases by exactly one). -/
theorem C4_single_inflight_load :
    (∀ st p now, DbReach st → st.loadingId = some p → st.clock ≤ now →
      dbLoadModels now st = (.joined p, { st with clock := now })) ∧
    (∀ st p, st.loadingId = some p → srvLoadModels st = (.joined p, st)) ∧
    (∀ st k now, st.loadingId = none →
      ¬(st.modelsLoaded = true ∧ now - st.lastModelLoadTime < MODEL_VALIDITY_DURATION) →
      1 ≤ k → (dbCalls k now st).loadsStarted = st.loadsStarted + 1) ∧
    (∀ st k, st.loadingId = none → st.modelsLoaded = false →
      1 ≤ k → (srvCalls k st).loadsStarted = st.loadsStarted + 1) := by
  refine ⟨?_, ?_, ?_, ?_⟩
  · intro st p now hr hp hn
    exact dbLoadModels_joined st p now (dbReach_inv st hr) hp hn
  · intro st p hp
    exact srvLoadModels_joined st p hp
  · intro st k now hid hfresh hk
    cases k with
    | zero => omega
    | succ m =>
      show (dbCalls m now (dbLoadModels now st).2).loadsStarted = st.loadsStarted + 1
      have hstep : (dbLoadModels now st).2 =
          { st with loadingId := some st.loadsStarted,
                    loadsStarted := st.loadsStarted + 1, clock := now } := by
        unfold dbLoadModels
        rw [if_neg hfresh, hid]
      rw [hstep]
      exact (dbCalls_joined_stable m now _ (by simp) (by simpa using hfresh)).1
  · intro st k hid hm hk
    cases k with
    | zero => omega
    | succ m =>
      show (srvCalls m (srvLoadModels st).2).loadsStarted = st.loadsStarted + 1
      have hstep : (srvLoadModels st).2 =
          { st with loadingId := some st.loadsStarted,
                    loadsStarted := st.loadsStarted + 1 } := by
        unfold srvLoadModels
        rw [hid, if_neg (by simp [hm])]
      rw [hstep]
      rw [srvCalls_joined_stable m _ (by simp)]

theorem C4_witness :
    (DbReach (dbLoadModels 0 dbLoaderInit).2 ∧
      (dbLoadModels 0 dbLoaderInit).2.loadingId = some 0 ∧
      (dbLoadModels 0 dbLoaderInit).2.clock ≤ 5 ∧
      dbLoadModels 5 (dbLoadModels 0 dbLoaderInit).2
        = (.joined 0, { (dbLoadModels 0 dbLoaderInit).2 with clock := 5 })) ∧
    ((⟨false, some 4, 7⟩ : SrvLoader).loadingId = some 4 ∧
      srvLoadModels ⟨false, some 4, 7⟩ = (.joined 4, ⟨false, some 4, 7⟩)) ∧
    (dbLoaderInit.loadingId = none ∧
      ¬(dbLoaderInit.modelsLoaded = true ∧
        0 - dbLoaderInit.lastModelLoadTime < MODEL_VALIDITY_DURATION) ∧
      (dbCalls 3 0 dbLoaderInit).loadsStarted = dbLoaderInit.loadsStarted + 1) ∧
    ((⟨false, none, 0⟩ : SrvLoader).loadingId = none ∧
      (srvCalls 2 ⟨false, none, 0⟩).loadsStarted = 0 + 1) :=
  ⟨⟨DbReach.call dbLoaderInit 0 DbReach.init (by decide), by decide, by decide,
    C4_single_inflight_load.1 (dbLoadModels 0 dbLoaderInit).2 0 5
      (DbReach.call dbLoaderInit 0 DbReach.init (by decide)) (by decide) (by decide)⟩,
   ⟨rfl, C4_single_inflight_load.2.1 ⟨false, some 4, 7⟩ 4 rfl⟩,
   ⟨rfl, by decide,
    C4_single_inflight_load.2.2.1 dbLoaderInit 3 0 rfl (by decide) (by decide)⟩,
   ⟨rfl, C4_single_inflight_load.2.2.2 ⟨false, none, 0⟩ 2 rfl rfl (by decide)⟩⟩

theorem C8_witness :
    ((findMatchingFaceDirectly [0] ([] ++ [(⟨1, some [0]⟩ : Profile)]) 1).1
        = some (⟨1, some [0]⟩, 0)) ∧
      ∃ dq, (⟨1, some [0]⟩ : Profile).faceDescriptor = some dq ∧
        ([0] : Desc).length ≤ dq.length :=
  ⟨by simp [findMatchingFaceDirectly, directLoop, jsSumSq, sumSqRef, sumSqFrom, sumSqGo,
      sqTerm, sqrtLtQ, ltBest],
   (C8_amended_skip_missing [0] 1 [] [⟨1, some [0]⟩] 7).2 ⟨1, some [0]⟩ 0
    (by simp [findMatchingFaceDirectly, directLoop, jsSumSq, sumSqRef, sumSqFrom, sumSqGo,
      sqTerm, sqrtLtQ, ltBest])⟩

end FaceAuth
